import Mathlib

/-!
Verification of the Incremental Semantic Code Index of the PR-Bot repository:
the `VectorStore` (app/core/vector_store.py), the chunking policy of the
`CodebaseIndexer` (app/core/indexer.py) and the `KeyManager` credential pool
(app/core/key_manager.py), shallowly embedded in Lean.

Machine floats are modelled as an abstract linearly ordered field, Python
lists as `List`, Python dicts as association lists with unique keys, and
`hashlib.sha256(...).hexdigest()[:16]` by an executable SHA-256 over the
UTF-8 bytes of the content.
-/

namespace PRBot

/-! ## SHA-256 over natural numbers, modelling `hashlib.sha256` -/

/-- Right rotation of a 32-bit word represented as a natural number below 2^32. -/
def rotr (n x : Nat) : Nat := x / 2 ^ n + x % 2 ^ n * 2 ^ (32 - n)

/-- Bitwise complement on 32-bit words. -/
def bnot32 (x : Nat) : Nat := x ^^^ 0xffffffff

/-- The SHA-256 choice function. -/
def sha2ch (x y z : Nat) : Nat := (x &&& y) ^^^ (bnot32 x &&& z)

/-- The SHA-256 majority function. -/
def sha2maj (x y z : Nat) : Nat := (x &&& y) ^^^ (x &&& z) ^^^ (y &&& z)

/-- Big sigma-0 of SHA-256. -/
def bsig0 (x : Nat) : Nat := rotr 2 x ^^^ rotr 13 x ^^^ rotr 22 x

/-- Big sigma-1 of SHA-256. -/
def bsig1 (x : Nat) : Nat := rotr 6 x ^^^ rotr 11 x ^^^ rotr 25 x

/-- Small sigma-0 of SHA-256. -/
def ssig0 (x : Nat) : Nat := rotr 7 x ^^^ rotr 18 x ^^^ (x >>> 3)

/-- Small sigma-1 of SHA-256. -/
def ssig1 (x : Nat) : Nat := rotr 17 x ^^^ rotr 19 x ^^^ (x >>> 10)

/-- Addition modulo 2^32. -/
def add32 (a b : Nat) : Nat := (a + b) % 4294967296

/-- The 64 SHA-256 round constants of FIPS 180-4, written in decimal. -/
def sha2K : List Nat :=
  [1116352408, 1899447441, 3049323471, 3921009573, 961987163, 1508970993,
   2453635748, 2870763221, 3624381080, 310598401, 607225278, 1426881987,
   1925078388, 2162078206, 2614888103, 3248222580, 3835390401, 4022224774,
   264347078, 604807628, 770255983, 1249150122, 1555081692, 1996064986,
   2554220882, 2821834349, 2952996808, 3210313671, 3336571891, 3584528711,
   113926993, 338241895, 666307205, 773529912, 1294757372, 1396182291,
   1695183700, 1986661051, 2177026350, 2456956037, 2730485921, 2820302411,
   3259730800, 3345764771, 3516065817, 3600352804, 4094571909, 275423344,
   430227734, 506948616, 659060556, 883997877, 958139571, 1322822218,
   1537002063, 1747873779, 1955562222, 2024104815, 2227730452, 2361852424,
   2428436474, 2756734187, 3204031479, 3329325298]

/-- The eight 32-bit words of a SHA-256 state. -/
structure Digest where
  h0 : Nat
  h1 : Nat
  h2 : Nat
  h3 : Nat
  h4 : Nat
  h5 : Nat
  h6 : Nat
  h7 : Nat
  deriving DecidableEq

/-- The SHA-256 initial hash value (FIPS 180-4). -/
def sha2H0 : Digest :=
  ⟨1779033703, 3144134277, 1013904242, 2773480762,
   1359893119, 2600822924, 528734635, 1541459225⟩

/-- The eight working variables of the SHA-256 compression loop. -/
structure Work where
  a : Nat
  b : Nat
  c : Nat
  d : Nat
  e : Nat
  f : Nat
  g : Nat
  hh : Nat
  deriving DecidableEq

/-- One extension step of the SHA-256 message schedule: appends the next word. -/
def wstep (w : List Nat) : List Nat :=
  w ++ [add32 (add32 (ssig1 (w.getD (w.length - 2) 0)) (w.getD (w.length - 7) 0))
          (add32 (ssig0 (w.getD (w.length - 15) 0)) (w.getD (w.length - 16) 0))]

/-- Extend a 16-word block to the 64-word SHA-256 message schedule. -/
def schedule (block16 : List Nat) : List Nat :=
  (List.range 48).foldl (fun w _ => wstep w) block16

/-- One SHA-256 round, consuming a round constant paired with a schedule word. -/
def sha2round (s : Work) (kw : Nat × Nat) : Work :=
  let t1 := add32 s.hh (add32 (bsig1 s.e) (add32 (sha2ch s.e s.f s.g) (add32 kw.1 kw.2)))
  let t2 := add32 (bsig0 s.a) (sha2maj s.a s.b s.c)
  ⟨add32 t1 t2, s.a, s.b, s.c, add32 s.d t1, s.e, s.f, s.g⟩

/-- Compress one 16-word block into the running digest. -/
def compressBlock (hst : Digest) (block16 : List Nat) : Digest :=
  let w := schedule block16
  let s0 : Work := ⟨hst.h0, hst.h1, hst.h2, hst.h3, hst.h4, hst.h5, hst.h6, hst.h7⟩
  let s := (sha2K.zip w).foldl sha2round s0
  ⟨add32 hst.h0 s.a, add32 hst.h1 s.b, add32 hst.h2 s.c, add32 hst.h3 s.d,
   add32 hst.h4 s.e, add32 hst.h5 s.f, add32 hst.h6 s.g, add32 hst.h7 s.hh⟩

/-- Big-endian byte representation of a value in `n` bytes. -/
def beBytes (n v : Nat) : List Nat :=
  (List.range n).map (fun i => v / 2 ^ (8 * (n - 1 - i)) % 256)

/-- SHA-256 padding: append 0x80, zeros and the 64-bit big-endian bit length. -/
def padBytes (msg : List Nat) : List Nat :=
  let zeros := (64 - (msg.length + 9) % 64) % 64
  msg ++ 0x80 :: List.replicate zeros 0 ++ beBytes 8 (8 * msg.length)

/-- Group bytes into big-endian 32-bit words, four bytes at a time. -/
def bytesToWords : List Nat → List Nat
  | b0 :: b1 :: b2 :: b3 :: rest =>
      (b0 * 16777216 + b1 * 65536 + b2 * 256 + b3) :: bytesToWords rest
  | _ => []

/-- Split a word list into 16-word blocks; the fuel bounds the recursion depth. -/
def toBlocks : Nat → List Nat → List (List Nat)
  | 0, _ => []
  | _, [] => []
  | fuel + 1, l => l.take 16 :: toBlocks fuel (l.drop 16)

/-- The SHA-256 digest of a byte list. -/
def sha256Digest (msg : List Nat) : Digest :=
  let ws := bytesToWords (padBytes msg)
  (toBlocks ws.length ws).foldl compressBlock sha2H0

/-- Hexadecimal digit characters. -/
def hexChar (n : Nat) : Char :=
  "0123456789abcdef".data.getD n '0'

/-- The eight hex characters of one 32-bit word, most significant nibble first. -/
def wordHex (w : Nat) : List Char :=
  [hexChar (w / 2 ^ 28 % 16), hexChar (w / 2 ^ 24 % 16), hexChar (w / 2 ^ 20 % 16),
   hexChar (w / 2 ^ 16 % 16), hexChar (w / 2 ^ 12 % 16), hexChar (w / 2 ^ 8 % 16),
   hexChar (w / 2 ^ 4 % 16), hexChar (w % 16)]

/-- The 64-character hexadecimal rendering of a digest, as `hexdigest()` yields. -/
def digestHex (d : Digest) : List Char :=
  wordHex d.h0 ++ wordHex d.h1 ++ wordHex d.h2 ++ wordHex d.h3 ++
  wordHex d.h4 ++ wordHex d.h5 ++ wordHex d.h6 ++ wordHex d.h7

/-- UTF-8 bytes of one Unicode code point, as Python `str.encode()` produces. -/
def utf8Bytes (c : Char) : List Nat :=
  let n := c.toNat
  if n < 0x80 then [n]
  else if n < 0x800 then [0xC0 + n / 64, 0x80 + n % 64]
  else if n < 0x10000 then [0xE0 + n / 4096, 0x80 + n / 64 % 64, 0x80 + n % 64]
  else [0xF0 + n / 262144, 0x80 + n / 4096 % 64, 0x80 + n / 64 % 64, 0x80 + n % 64]

/-- UTF-8 encoding of a string, as Python `content.encode()` produces. -/
def strBytes (s : String) : List Nat :=
  (s.data.map utf8Bytes).flatten

/-- Model of `VectorStore._compute_hash`: the first 16 hex characters of the
SHA-256 of the UTF-8 encoded content. -/
def compute_hash (content : String) : String :=
  ⟨(digestHex (sha256Digest (strBytes content))).take 16⟩

/-! ## Python dicts as insertion-ordered association lists with unique keys -/

/-- Lookup `d.get(k)` in a Python dict modelled as an association list: the
value of the first entry carrying the key. -/
def dictGet {β : Type} : List (String × β) → String → Option β
  | [], _ => none
  | p :: d, k => if p.1 == k then some p.2 else dictGet d k

/-- Assignment `d[k] = v` in a Python dict: updates the entry in place when
the key is present, otherwise appends it. -/
def dictSet {β : Type} (d : List (String × β)) (k : String) (v : β) : List (String × β) :=
  if d.any (fun p => p.1 == k) then d.map (fun p => if p.1 == k then (k, v) else p)
  else d ++ [(k, v)]

/-- Deletion `del d[k]` in a Python dict. -/
def dictErase {β : Type} (d : List (String × β)) (k : String) : List (String × β) :=
  d.filter (fun p => p.1 != k)

/-! ## VectorStore (app/core/vector_store.py) -/

/-- One metadata record as built by `add_chunks`. -/
structure Meta where
  id : String
  file_path : String
  chunk_index : Nat
  chunk_type : String
  name : String
  content : String
  deriving DecidableEq, Inhabited

/-- An input chunk dict consumed by `add_chunks`: the keys `type`, `name` and
`content` may be absent, `dict.get` supplies the defaults. -/
structure ChunkIn where
  type : Option String
  name : Option String
  content : Option String
  deriving DecidableEq, Inhabited

/-- The in-memory state of `VectorStore`: the embedding matrix as a list of
rows, the metadata list and the file-hash dict. The scalar type is arbitrary:
the mutating operations never compute on scalars. -/
structure VectorStore (α : Type) where
  repo_id : String
  embeddings : List (List α)
  metadata : List Meta
  file_hashes : List (String × String)
  deriving DecidableEq

/-- A freshly initialized store for a repository with nothing on disk. -/
def VectorStore.empty {α : Type} (rid : String) : VectorStore α := ⟨rid, [], [], []⟩

/-- Model of `VectorStore.needs_update`: Python compares the stored hash (or
`None`) with the hash of the content, and `None != str` is true. -/
def needs_update {α : Type} (s : VectorStore α) (file_path content : String) : Bool :=
  match dictGet s.file_hashes file_path with
  | none => true
  | some stored => stored != compute_hash content

/-- The metadata record that `add_chunks` creates for chunk number `i` of a
file; the content is truncated to its first 500 characters. -/
def mkMeta (file_path : String) (i : Nat) (c : ChunkIn) : Meta :=
  ⟨file_path ++ ":" ++ toString i, file_path, i, c.type.getD "code", c.name.getD "",
   ⟨(c.content.getD "").data.take 500⟩⟩

/-- The metadata list that `add_chunks` builds for a chunk list. -/
def newMetadata (file_path : String) (chunks : List ChunkIn) : List Meta :=
  chunks.enum.map (fun p => mkMeta file_path p.1 p.2)

/-- The `keep_indices` list computed inside `_delete_file_chunks`: positions
of the metadata records that do not belong to the file. -/
def keepIndices {α : Type} (s : VectorStore α) (file_path : String) : List Nat :=
  (List.range s.metadata.length).filter
    (fun i => (s.metadata.getD i default).file_path != file_path)

/-- Model of `VectorStore._delete_file_chunks`: computes the indices to keep
and filters the metadata list and the embedding matrix by them. -/
def delete_file_chunks {α : Type} (s : VectorStore α) (file_path : String) : VectorStore α :=
  if s.metadata.length = 0 then s
  else if (keepIndices s file_path).length = s.metadata.length then s
  else
    ⟨s.repo_id,
     if 0 < s.embeddings.length ∧ 0 < (keepIndices s file_path).length then
       (keepIndices s file_path).map (fun i => s.embeddings.getD i [])
     else if (keepIndices s file_path).length = 0 then [] else s.embeddings,
     (keepIndices s file_path).map (fun i => s.metadata.getD i default),
     s.file_hashes⟩

/-- Model of `VectorStore.add_chunks`: a no-op when either list is empty,
otherwise it deletes the file's previous chunks, appends the new metadata and
embedding rows and stores the content hash. -/
def add_chunks {α : Type} (s : VectorStore α) (file_path : String) (chunks : List ChunkIn)
    (embeddings : List (List α)) (content_hash : String) : VectorStore α :=
  if chunks.isEmpty || embeddings.isEmpty then s
  else
    let s1 := delete_file_chunks s file_path
    ⟨s1.repo_id, s1.embeddings ++ embeddings, s1.metadata ++ newMetadata file_path chunks,
     dictSet s1.file_hashes file_path content_hash⟩

/-- Model of `VectorStore.delete_file`: removes the chunks, then the hash
entry when one is present. -/
def delete_file {α : Type} (s : VectorStore α) (file_path : String) : VectorStore α :=
  let s1 := delete_file_chunks s file_path
  if s1.file_hashes.any (fun p => p.1 == file_path) then
    ⟨s1.repo_id, s1.embeddings, s1.metadata, dictErase s1.file_hashes file_path⟩
  else s1

/-- The record returned by `get_stats`. -/
structure Stats where
  repo_id : String
  total_chunks : Nat
  indexed_files : Nat
  deriving DecidableEq

/-- Model of `VectorStore.get_stats`. -/
def get_stats {α : Type} (s : VectorStore α) : Stats :=
  ⟨s.repo_id, s.metadata.length, s.file_hashes.length⟩

/-! ## The query path

Machine floats are abstracted to a linearly ordered field together with an
uninterpreted square-root function standing for the one `np.linalg.norm`
applies. -/

/-- Dot product of two vectors, as `np.dot` on equally long 1-D arrays. -/
def dotList {α : Type} [LinearOrderedField α] (v w : List α) : α :=
  (List.zipWith (fun x y => x * y) v w).sum

/-- The epsilon `1e-8` added to the norms before dividing. -/
def epsilon {α : Type} [LinearOrderedField α] : α := 1 / 100000000

/-- Euclidean norm of a vector: `np.linalg.norm v = sqrtFn (Σ x²)`. -/
def norm2 {α : Type} [LinearOrderedField α] (sqrtFn : α → α) (v : List α) : α :=
  sqrtFn ((v.map (fun x => x * x)).sum)

/-- Epsilon-guarded normalization of a vector, elementwise
`v / (np.linalg.norm(v) + 1e-8)`. -/
def normalizeVec {α : Type} [LinearOrderedField α] (sqrtFn : α → α) (v : List α) : List α :=
  v.map (fun x => x / (norm2 sqrtFn v + epsilon))

/-- The similarity `query` computes for one stored row: the dot product of
the epsilon-normalized row with the epsilon-normalized query vector. -/
def cosineSim {α : Type} [LinearOrderedField α] (sqrtFn : α → α) (q e : List α) : α :=
  dotList (normalizeVec sqrtFn e) (normalizeVec sqrtFn q)

/-- The `similarities` array inside `query`: one score per embedding row. -/
def similarities {α : Type} [LinearOrderedField α] (sqrtFn : α → α)
    (s : VectorStore α) (q : List α) : List α :=
  s.embeddings.map (fun e => cosineSim sqrtFn q e)

/-- A Python value readable from a metadata record: a string field or the
integer `chunk_index`. -/
inductive JVal where
  | s (v : String)
  | n (v : Nat)
  deriving DecidableEq

/-- Dictionary access `m.get(k)` on a metadata record. -/
def Meta.get (m : Meta) (k : String) : Option JVal :=
  if k == "id" then some (.s m.id)
  else if k == "file_path" then some (.s m.file_path)
  else if k == "chunk_index" then some (.n m.chunk_index)
  else if k == "chunk_type" then some (.s m.chunk_type)
  else if k == "name" then some (.s m.name)
  else if k == "content" then some (.s m.content)
  else none

/-- The test `all(m.get(k) == v for k, v in filter_dict.items())`. -/
def matchesFilter (fd : List (String × JVal)) (m : Meta) : Bool :=
  fd.all (fun p => decide (m.get p.1 = some p.2))

/-- The `valid_indices` list inside `query`; a `filter_dict` of `[]` covers
both falsy Python values `None` and `{}`. -/
def valid_indices {α : Type} (s : VectorStore α) (fd : List (String × JVal)) : List Nat :=
  if fd.isEmpty then List.range s.metadata.length
  else (List.range s.metadata.length).filter
    (fun i => matchesFilter fd (s.metadata.getD i default))

/-- Insertion into a list sorted by non-increasing second component, after
every entry with a greater-or-equal key: the insertion point of a stable
descending sort. -/
def insertDesc {α : Type} [LinearOrderedField α] (x : Nat × α) :
    List (Nat × α) → List (Nat × α)
  | [] => [x]
  | y :: ys => if x.2 ≤ y.2 then y :: insertDesc x ys else x :: y :: ys

/-- Stable sort by non-increasing second component. Python's
`valid_similarities.sort(key=lambda x: x[1], reverse=True)` is a stable
descending sort, and every stable descending sort computes this list. -/
def sortDesc {α : Type} [LinearOrderedField α] (l : List (Nat × α)) : List (Nat × α) :=
  l.foldl (fun acc x => insertDesc x acc) []

/-- The `top_indices` list inside `query`: scored valid rows, sorted by
non-increasing similarity, cut to the first `n_results`. -/
def top_indices {α : Type} [LinearOrderedField α] (sqrtFn : α → α) (s : VectorStore α)
    (q : List α) (n_results : Nat) (fd : List (String × JVal)) : List (Nat × α) :=
  let sims := similarities sqrtFn s q
  (sortDesc ((valid_indices s fd).map (fun i => (i, sims.getD i 0)))).take n_results

/-- The nested `metadata` dict of one query result. -/
structure RMeta where
  file_path : String
  chunk_type : String
  name : String
  deriving DecidableEq

/-- One element of the list `query` returns. -/
structure QueryResult (α : Type) where
  id : String
  content : String
  metadata : RMeta
  distance : α
  deriving DecidableEq

/-- The result record `query` formats for one scored row. -/
def formatResult {α : Type} [LinearOrderedField α] (m : Meta) (sim : α) : QueryResult α :=
  ⟨m.id, m.content, ⟨m.file_path, m.chunk_type, m.name⟩, 1 - sim⟩

/-- Model of `VectorStore.query`. -/
def query {α : Type} [LinearOrderedField α] (sqrtFn : α → α) (s : VectorStore α)
    (q : List α) (n_results : Nat) (fd : List (String × JVal)) : List (QueryResult α) :=
  if q.isEmpty || s.embeddings.isEmpty then []
  else if (valid_indices s fd).isEmpty then []
  else (top_indices sqrtFn s q n_results fd).map
    (fun p => formatResult (s.metadata.getD p.1 default) p.2)

/-! ## Operation sequences and the paired specification store -/

/-- One mutating call on a `VectorStore`. -/
inductive StoreOp (α : Type) where
  | add (file_path : String) (chunks : List ChunkIn)
        (embeddings : List (List α)) (content_hash : String)
  | del (file_path : String)

/-- Apply one operation to a store. -/
def applyOp {α : Type} (s : VectorStore α) : StoreOp α → VectorStore α
  | .add fp cs es ch => add_chunks s fp cs es ch
  | .del fp => delete_file s fp

/-- Run a sequence of operations from the freshly created empty store. -/
def runOps {α : Type} (rid : String) (ops : List (StoreOp α)) : VectorStore α :=
  ops.foldl applyOp (VectorStore.empty rid)

/-- Specification companion of `add_chunks` on a store that keeps each
metadata record physically paired with the embedding row supplied with it. -/
def pairedAdd {α : Type} (ps : List (Meta × List α)) (fp : String) (chunks : List ChunkIn)
    (embeddings : List (List α)) : List (Meta × List α) :=
  if chunks.isEmpty || embeddings.isEmpty then ps
  else ps.filter (fun p => p.1.file_path != fp) ++ (newMetadata fp chunks).zip embeddings

/-- Specification companion of `applyOp` on the paired store. -/
def pairedApply {α : Type} (ps : List (Meta × List α)) : StoreOp α → List (Meta × List α)
  | .add fp cs es _ => pairedAdd ps fp cs es
  | .del fp => ps.filter (fun p => p.1.file_path != fp)

/-- The paired store reached by a sequence of operations from empty. -/
def pairedRun {α : Type} (ops : List (StoreOp α)) : List (Meta × List α) :=
  ops.foldl pairedApply []

/-! ## KeyManager (app/core/key_manager.py) -/

/-- The state of `KeyManager`: the credential list, the round-robin cursor
and the cooldown dict mapping a key to the timestamp when it becomes
available again. Clock values `time.time()` are modelled as rationals. -/
structure KeyManager where
  keys : List String
  current_index : Nat
  cooldowns : List (String × ℚ)
  deriving DecidableEq

/-- The fixed `COOLDOWN_DURATION` of sixty seconds. -/
def COOLDOWN_DURATION : ℚ := 60

/-- Model of `KeyManager._is_key_ready` at clock value `now`: the readiness
flag together with the cooldown dict after the lazy deletion of an expired
entry. -/
def is_key_ready (now : ℚ) (cooldowns : List (String × ℚ)) (key : String) :
    Bool × List (String × ℚ) :=
  match dictGet cooldowns key with
  | none => (true, cooldowns)
  | some t => if now > t then (true, dictErase cooldowns key) else (false, cooldowns)

/-- The body of the `while True` loop of `get_next_key`; the fuel bounds the
number of iterations, and `keys.length` iterations always suffice because the
loop stops when the cursor returns to `start_index`. -/
def get_next_key_go (now : ℚ) (start_index : Nat) :
    Nat → KeyManager → Option String × KeyManager
  | 0, km => (none, km)
  | fuel + 1, km =>
    let key := km.keys.getD km.current_index ""
    let next := (km.current_index + 1) % km.keys.length
    let r := is_key_ready now km.cooldowns key
    let km2 : KeyManager := ⟨km.keys, next, r.2⟩
    if r.1 then (some key, km2)
    else if next = start_index then (some key, km2)
    else get_next_key_go now start_index fuel km2

/-- Model of `KeyManager.get_next_key` at clock value `now`. -/
def get_next_key (now : ℚ) (km : KeyManager) : Option String × KeyManager :=
  if km.keys.isEmpty then (none, km)
  else get_next_key_go now km.current_index km.keys.length km

/-- Model of `KeyManager.report_rate_limit` at clock value `now`. -/
def report_rate_limit (now : ℚ) (km : KeyManager) (key : String) : KeyManager :=
  ⟨km.keys, km.current_index, dictSet km.cooldowns key (now + COOLDOWN_DURATION)⟩

/-- Run `count` consecutive `get_next_key` calls at clock value `now`,
collecting the returned credentials. -/
def runCalls (now : ℚ) : Nat → KeyManager → List (Option String) × KeyManager
  | 0, km => ([], km)
  | count + 1, km =>
    let r := get_next_key now km
    let rest := runCalls now count r.2
    (r.1 :: rest.1, rest.2)

/-! ## Chunking (app/core/indexer.py, `_chunk_code`) -/

/-- One chunk emitted by `_chunk_code`. -/
structure ChunkOut where
  content : String
  type : String
  name : String
  deriving DecidableEq

/-- Python `content.split('\n')` on the character list: always at least one,
possibly empty, piece. -/
def splitNlChars : List Char → List (List Char)
  | [] => [[]]
  | c :: rest =>
    match splitNlChars rest with
    | [] => [[c]]
    | h :: t => if c = '\n' then [] :: h :: t else (c :: h) :: t

/-- Python `content.split('\n')` on strings. -/
def pySplitLines (s : String) : List String :=
  (splitNlChars s.data).map (fun l => ⟨l⟩)

/-- The loop `for i in range(0, len(lines), chunk_size)` of `_chunk_code`,
with `i0` the current value of `i` and `lines` the lines not yet consumed:
one `code_chunk` per window of fifty lines. -/
def chunk_windows (file_path : String) : Nat → List String → List ChunkOut
  | _, [] => []
  | i0, x :: xs =>
    let chunk_lines := (x :: xs).take 50
    ⟨String.intercalate "\n" chunk_lines, "code_chunk",
     file_path ++ ":L" ++ toString (i0 + 1) ++ "-" ++ toString (i0 + chunk_lines.length)⟩
      :: chunk_windows file_path (i0 + 50) ((x :: xs).drop 50)
termination_by _ l => l.length
decreasing_by simp [List.length_drop]; omega

/-- Model of `CodebaseIndexer._chunk_code`. The tree-sitter symbol extractor
is an external collaborator of the core: `supported` stands for
`code_parser.is_supported(file_path)` and `summary` for
`code_parser.get_summary(content, file_path)`. -/
def chunk_code (supported : Bool) (summary : String) (file_path content : String) :
    List ChunkOut :=
  (if supported then
    [⟨"File: " ++ file_path ++ "\n\n" ++ summary, "file_summary", file_path⟩]
   else []) ++
  (if content.length < 4000 then [⟨content, "full_file", file_path⟩]
   else chunk_windows file_path 0 (pySplitLines content))

/-- Run consecutive `get_next_key` calls at the given clock values. -/
def runCallsAt : List ℚ → KeyManager → List (Option String) × KeyManager
  | [], km => ([], km)
  | t :: ts, km =>
    let r := get_next_key t km
    let rest := runCallsAt ts r.2
    (r.1 :: rest.1, rest.2)

/-- State-passing form of the read method `needs_update`: the method receives
`self` and hands it back untouched, since its body assigns no attribute. -/
def needs_update_run {α : Type} (s : VectorStore α) (file_path content : String) :
    Bool × VectorStore α :=
  (needs_update s file_path content, s)

/-- State-passing form of the read method `get_stats`. -/
def get_stats_run {α : Type} (s : VectorStore α) : Stats × VectorStore α :=
  (get_stats s, s)

/-- State-passing form of the read method `query`. -/
def query_run {α : Type} [LinearOrderedField α] (sqrtFn : α → α) (s : VectorStore α)
    (q : List α) (n_results : Nat) (fd : List (String × JVal)) :
    List (QueryResult α) × VectorStore α :=
  (query sqrtFn s q n_results fd, s)

/-- Refinement relation of the store against the paired specification store:
the metadata list and the embedding matrix are its two projections. -/
def Paired {α : Type} (s : VectorStore α) (ps : List (Meta × List α)) : Prop :=
  s.metadata = ps.map Prod.fst ∧ s.embeddings = ps.map Prod.snd

/-- Precondition of the claims on operation sequences: every `add_chunks`
call passes equally long chunk and embedding lists. -/
def AddPre {α : Type} : StoreOp α → Prop
  | .add _ cs es _ => cs.length = es.length
  | .del _ => True

/-- A hash entry exists for a path exactly when some chunk carries that path. -/
def HashChunkInv {α : Type} (s : VectorStore α) : Prop :=
  ∀ p : String, (dictGet s.file_hashes p).isSome ↔ ∃ m ∈ s.metadata, m.file_path = p

/-- Every configured credential is in `Cooling` state at clock value `now`. -/
def AllCooling (now : ℚ) (km : KeyManager) : Prop :=
  ∀ k ∈ km.keys, ∃ t, dictGet km.cooldowns k = some t ∧ ¬ now > t

/-- The closed form of the `j`-th fifty-line window chunk of `_chunk_code`,
for a loop that started at line offset `i0`. -/
def windowChunk (file_path : String) (lines : List String) (i0 j : Nat) : ChunkOut :=
  ⟨String.intercalate "\n" ((lines.drop (50 * j)).take 50), "code_chunk",
   file_path ++ ":L" ++ toString (i0 + 50 * j + 1) ++ "-"
     ++ toString (i0 + 50 * j + min 50 (lines.length - 50 * j))⟩

/-- A line of thirty-one characters, building block of the 130-line witness file. -/
def c5Line : String := "zzzzzzzzzzzzzzzzzzzzzzzzzzzzzzz"

/-- A 130-line content of 4159 characters, above the 4000-character threshold. -/
def c5Content : String := String.intercalate "\n" (List.replicate 130 c5Line)

/-- The precondition of claim C1 on one operation: every `add_chunks` call
passes equally long, non-empty lists. -/
def C1Pre {α : Type} : StoreOp α → Prop
  | .add _ cs es _ => cs.length = es.length ∧ cs ≠ []
  | .del _ => True

/-- A small concrete two-file store over rational scalars, used to witness
the claims at explicit inputs. -/
def sampleStore2 : VectorStore ℚ :=
  ⟨"r", [[1], [2]],
   [⟨"a.py:0", "a.py", 0, "code", "", "x"⟩, ⟨"b.py:0", "b.py", 0, "code", "", "y"⟩],
   [("a.py", "ha"), ("b.py", "hb")]⟩

/-! ## Association-list dictionary lemmas -/

theorem compute_hash_test_abc : compute_hash "abc" = "ba7816bf8f01cfea" := by decide

theorem compute_hash_test_empty : compute_hash "" = "e3b0c44298fc1c14" := by decide

theorem dictGet_nil {β : Type} (k : String) : dictGet ([] : List (String × β)) k = none := rfl

theorem dictGet_append {β : Type} (d1 d2 : List (String × β)) (k : String) :
    dictGet (d1 ++ d2) k = ((dictGet d1 k).or (dictGet d2 k)) := by
  induction d1 with
  | nil => simp [dictGet]
  | cons a d ih =>
    by_cases ha : a.1 == k <;> simp [dictGet, ha, ih]

theorem dictGet_isSome_iff_any {β : Type} (d : List (String × β)) (k : String) :
    (dictGet d k).isSome = d.any (fun p => p.1 == k) := by
  induction d with
  | nil => rfl
  | cons a d ih =>
    by_cases ha : a.1 == k <;> simp [dictGet, ha, ih]

theorem dictGet_mapUpdate_self {β : Type} (d : List (String × β)) (k : String) (v : β) :
    dictGet (d.map (fun p => if p.1 == k then (k, v) else p)) k
      = if (dictGet d k).isSome then some v else none := by
  induction d with
  | nil => simp [dictGet]
  | cons a d ih =>
    by_cases ha : a.1 == k
    · simp [dictGet, ha, List.map_cons]
    · simpa [dictGet, ha, List.map_cons] using ih

theorem dictGet_mapUpdate_other {β : Type} (d : List (String × β)) (k k' : String) (v : β)
    (h : k' ≠ k) :
    dictGet (d.map (fun p => if p.1 == k then (k, v) else p)) k' = dictGet d k' := by
  have hbk : ((k : String) == k') = false := by
    simp only [beq_eq_false_iff_ne, ne_eq]
    exact fun hkk => h hkk.symm
  induction d with
  | nil => simp [dictGet]
  | cons a d ih =>
    by_cases ha : a.1 == k
    · have ha' : a.1 = k := by simpa using ha
      have hak' : (a.1 == k') = false := by
        simp only [beq_eq_false_iff_ne, ne_eq, ha']
        exact fun hkk => h hkk.symm
      simpa [dictGet, ha, List.map_cons, hbk, hak'] using ih
    · by_cases hak' : a.1 == k' <;> simpa [dictGet, ha, List.map_cons, hak'] using ih

theorem dictGet_set_self {β : Type} (d : List (String × β)) (k : String) (v : β) :
    dictGet (dictSet d k v) k = some v := by
  unfold dictSet
  split
  case isTrue hmem =>
    rw [dictGet_mapUpdate_self]
    rw [dictGet_isSome_iff_any, hmem]
    rfl
  case isFalse =>
    rw [dictGet_append]
    have hnone : dictGet d k = none := by
      rename_i hmem
      cases hg : dictGet d k
      · rfl
      · exact absurd (by rw [← dictGet_isSome_iff_any, hg]; rfl) hmem
    simp [hnone, dictGet]

theorem dictGet_set_other {β : Type} (d : List (String × β)) (k k' : String) (v : β)
    (h : k' ≠ k) : dictGet (dictSet d k v) k' = dictGet d k' := by
  have hbk : ((k : String) == k') = false := by
    simp only [beq_eq_false_iff_ne, ne_eq]
    exact fun hkk => h hkk.symm
  unfold dictSet
  split
  · exact dictGet_mapUpdate_other d k k' v h
  · rw [dictGet_append]
    simp [dictGet, hbk]

theorem dictGet_erase_self {β : Type} (d : List (String × β)) (k : String) :
    dictGet (dictErase d k) k = none := by
  induction d with
  | nil => rfl
  | cons a d ih =>
    by_cases ha : a.1 == k
    · simpa [dictErase, List.filter_cons, bne, ha] using ih
    · simpa [dictErase, List.filter_cons, bne, ha, dictGet] using ih

theorem dictGet_erase_other {β : Type} (d : List (String × β)) (k k' : String)
    (h : k' ≠ k) : dictGet (dictErase d k) k' = dictGet d k' := by
  induction d with
  | nil => rfl
  | cons a d ih =>
    by_cases ha : a.1 == k
    · have ha' : a.1 = k := by simpa using ha
      have hak' : (a.1 == k') = false := by
        simp only [beq_eq_false_iff_ne, ne_eq, ha']
        exact fun hkk => h hkk.symm
      simpa [dictErase, List.filter_cons, bne, ha, dictGet, hak'] using ih
    · by_cases hak' : a.1 == k' <;>
        simpa [dictErase, List.filter_cons, bne, ha, dictGet, hak'] using ih

/-! ## Index-selection lemmas: `python`-style filtering through index lists -/

theorem range_filter_map_getD {β : Type} (d : β) (p : β → Bool) :
    ∀ l : List β,
      ((List.range l.length).filter (fun i => p (l.getD i d))).map (fun i => l.getD i d)
        = l.filter p
  | [] => by simp
  | a :: l => by
    rw [List.length_cons, List.range_succ_eq_map, List.filter_cons]
    simp only [List.getD_cons_zero]
    rw [List.filter_map]
    have hcomp :
        ((fun i => p ((a :: l).getD i d)) ∘ Nat.succ) = fun i => p (l.getD i d) := by
      funext i
      simp [Function.comp, List.getD_cons_succ]
    by_cases hpa : p a
    · rw [if_pos hpa]
      simp only [List.map_cons, List.getD_cons_zero, List.map_map, hcomp]
      have : ((fun i => (a :: l).getD i d) ∘ Nat.succ) = fun i => l.getD i d := by
        funext i
        simp [Function.comp, List.getD_cons_succ]
      rw [this, range_filter_map_getD d p l, List.filter_cons, if_pos hpa]
    · rw [if_neg hpa]
      simp only [List.map_map, hcomp]
      have : ((fun i => (a :: l).getD i d) ∘ Nat.succ) = fun i => l.getD i d := by
        funext i
        simp [Function.comp, List.getD_cons_succ]
      rw [this, range_filter_map_getD d p l, List.filter_cons, if_neg hpa]

theorem range_filter_map_getD_pair {β γ : Type} (d1 : β) (d2 : γ) (p : β → Bool) :
    ∀ (l1 : List β) (l2 : List γ), l1.length = l2.length →
      ((List.range l1.length).filter (fun i => p (l1.getD i d1))).map (fun i => l2.getD i d2)
        = ((l1.zip l2).filter (fun pr => p pr.1)).map Prod.snd
  | [], l2, hl => by simp
  | a :: l1, [], hl => by simp at hl
  | a :: l1, b :: l2, hl => by
    rw [List.length_cons, List.range_succ_eq_map, List.filter_cons]
    simp only [List.getD_cons_zero, List.zip_cons_cons, List.filter_cons]
    rw [List.filter_map]
    have hcomp :
        ((fun i => p ((a :: l1).getD i d1)) ∘ Nat.succ) = fun i => p (l1.getD i d1) := by
      funext i
      simp [Function.comp, List.getD_cons_succ]
    have hmap : ((fun i => (b :: l2).getD i d2) ∘ Nat.succ) = fun i => l2.getD i d2 := by
      funext i
      simp [Function.comp, List.getD_cons_succ]
    have hl' : l1.length = l2.length := by simpa using hl
    by_cases hpa : p a
    · rw [if_pos hpa, if_pos hpa]
      simp only [List.map_cons, List.getD_cons_zero, List.map_map, hcomp, hmap]
      rw [range_filter_map_getD_pair d1 d2 p l1 l2 hl']
    · rw [if_neg hpa, if_neg hpa]
      simp only [List.map_map, hcomp, hmap]
      rw [range_filter_map_getD_pair d1 d2 p l1 l2 hl']

/-! ## Characterization of the store mutations -/

theorem keepIndices_map_metadata {α : Type} (s : VectorStore α) (file_path : String) :
    (keepIndices s file_path).map (fun i => s.metadata.getD i default)
      = s.metadata.filter (fun m => m.file_path != file_path) := by
  unfold keepIndices
  exact range_filter_map_getD (default : Meta) (fun m => m.file_path != file_path) s.metadata

theorem keepIndices_length {α : Type} (s : VectorStore α) (file_path : String) :
    (keepIndices s file_path).length
      = (s.metadata.filter (fun m => m.file_path != file_path)).length := by
  have h := congrArg List.length (keepIndices_map_metadata s file_path)
  simpa using h

theorem delete_file_chunks_metadata {α : Type} (s : VectorStore α) (file_path : String) :
    (delete_file_chunks s file_path).metadata
      = s.metadata.filter (fun m => m.file_path != file_path) := by
  unfold delete_file_chunks
  by_cases h0 : s.metadata.length = 0
  · rw [if_pos h0, List.length_eq_zero.mp h0]
    rfl
  · rw [if_neg h0]
    by_cases hk : (keepIndices s file_path).length = s.metadata.length
    · rw [if_pos hk]
      rw [keepIndices_length] at hk
      exact (List.filter_eq_self.mpr (List.filter_length_eq_length.mp hk)).symm
    · rw [if_neg hk]
      exact keepIndices_map_metadata s file_path

theorem delete_file_chunks_embeddings {α : Type} (s : VectorStore α) (file_path : String)
    (hal : s.embeddings.length = s.metadata.length) :
    (delete_file_chunks s file_path).embeddings
      = ((s.metadata.zip s.embeddings).filter
          (fun pr => pr.1.file_path != file_path)).map Prod.snd := by
  have hpair : (keepIndices s file_path).map (fun i => s.embeddings.getD i [])
      = ((s.metadata.zip s.embeddings).filter
          (fun pr => pr.1.file_path != file_path)).map Prod.snd := by
    unfold keepIndices
    exact range_filter_map_getD_pair (default : Meta) ([] : List α)
      (fun m => m.file_path != file_path) s.metadata s.embeddings hal.symm
  unfold delete_file_chunks
  by_cases h0 : s.metadata.length = 0
  · rw [if_pos h0]
    have hm : s.metadata = [] := List.length_eq_zero.mp h0
    have he : s.embeddings = [] := List.length_eq_zero.mp (by rw [hal, h0])
    rw [hm, he]
    rfl
  · rw [if_neg h0]
    by_cases hk : (keepIndices s file_path).length = s.metadata.length
    · rw [if_pos hk]
      rw [keepIndices_length] at hk
      have hall := List.filter_length_eq_length.mp hk
      have hzip : (s.metadata.zip s.embeddings).filter
          (fun pr => pr.1.file_path != file_path) = s.metadata.zip s.embeddings :=
        List.filter_eq_self.mpr (fun pr hpr => hall pr.1 (List.of_mem_zip hpr).1)
      rw [hzip, List.map_snd_zip s.metadata s.embeddings (le_of_eq hal)]
    · rw [if_neg hk]
      dsimp only
      by_cases hke : (keepIndices s file_path).length = 0
      · have hknil : keepIndices s file_path = [] := List.length_eq_zero.mp hke
        rw [hknil] at hpair
        simp only [List.map_nil] at hpair
        rw [if_neg (by omega), if_pos hke]
        exact hpair
      · have hkpos : 0 < (keepIndices s file_path).length := Nat.pos_of_ne_zero hke
        have hepos : 0 < s.embeddings.length := by
          rw [hal]
          exact Nat.pos_of_ne_zero h0
        rw [if_pos ⟨hepos, hkpos⟩]
        exact hpair

theorem delete_file_chunks_file_hashes {α : Type} (s : VectorStore α) (file_path : String) :
    (delete_file_chunks s file_path).file_hashes = s.file_hashes := by
  unfold delete_file_chunks
  split
  · rfl
  split <;> rfl

theorem delete_file_chunks_repo_id {α : Type} (s : VectorStore α) (file_path : String) :
    (delete_file_chunks s file_path).repo_id = s.repo_id := by
  unfold delete_file_chunks
  split
  · rfl
  split <;> rfl

theorem newMetadata_length (file_path : String) (chunks : List ChunkIn) :
    (newMetadata file_path chunks).length = chunks.length := by
  simp [newMetadata, List.enum_length]

theorem newMetadata_file_path (file_path : String) (chunks : List ChunkIn) :
    ∀ m ∈ newMetadata file_path chunks, m.file_path = file_path := by
  intro m hm
  simp only [newMetadata, List.mem_map] at hm
  obtain ⟨p, _, rfl⟩ := hm
  rfl

theorem add_chunks_of_empty {α : Type} (s : VectorStore α) (file_path content_hash : String)
    (chunks : List ChunkIn) (embeddings : List (List α))
    (h : chunks = [] ∨ embeddings = []) :
    add_chunks s file_path chunks embeddings content_hash = s := by
  unfold add_chunks
  rcases h with h | h <;> simp [h]

theorem add_chunks_not_empty {α : Type} (s : VectorStore α) (file_path content_hash : String)
    (chunks : List ChunkIn) (embeddings : List (List α))
    (h1 : chunks ≠ []) (h2 : embeddings ≠ []) :
    add_chunks s file_path chunks embeddings content_hash
      = ⟨s.repo_id,
         (delete_file_chunks s file_path).embeddings ++ embeddings,
         s.metadata.filter (fun m => m.file_path != file_path) ++ newMetadata file_path chunks,
         dictSet s.file_hashes file_path content_hash⟩ := by
  unfold add_chunks
  rw [if_neg (by simp [List.isEmpty_iff, h1, h2])]
  simp only [delete_file_chunks_metadata, delete_file_chunks_file_hashes,
    delete_file_chunks_repo_id]

theorem length_filter_fp (fp : String) (l : List Meta) :
    (l.filter (fun m => m.file_path != fp)).length
      = l.length - l.countP (fun m => m.file_path == fp) := by
  induction l with
  | nil => simp
  | cons a l ih =>
    have hcle : l.countP (fun m => m.file_path == fp) ≤ l.length :=
      List.countP_le_length (fun m : Meta => m.file_path == fp)
    simp only [bne] at ih
    by_cases ha : a.file_path == fp <;>
      simp [List.filter_cons, List.countP_cons, bne, ha, ih] <;> omega

/-- Claim C3: `add_chunks` is a no-op when either list is empty; otherwise it
replaces the file's previous chunks with exactly the new ones, stores the
content hash, leaves no previous chunk of the file behind, and the chunk
count changes from `total` to `total - previous + len(chunks)`. -/
theorem claim_c3 {α : Type} (s : VectorStore α) (file_path content_hash : String)
    (chunks : List ChunkIn) (embeddings : List (List α)) :
    (chunks = [] ∨ embeddings = [] →
      add_chunks s file_path chunks embeddings content_hash = s) ∧
    (chunks ≠ [] → embeddings ≠ [] →
      (add_chunks s file_path chunks embeddings content_hash).metadata
          = s.metadata.filter (fun m => m.file_path != file_path)
              ++ newMetadata file_path chunks ∧
      dictGet (add_chunks s file_path chunks embeddings content_hash).file_hashes file_path
          = some content_hash ∧
      (add_chunks s file_path chunks embeddings content_hash).metadata.length
          = s.metadata.length
              - s.metadata.countP (fun m => m.file_path == file_path) + chunks.length ∧
      (∀ m ∈ (add_chunks s file_path chunks embeddings content_hash).metadata,
          m.file_path = file_path → m ∈ newMetadata file_path chunks) ∧
      (s.embeddings.length = s.metadata.length →
        (add_chunks s file_path chunks embeddings content_hash).embeddings
          = ((s.metadata.zip s.embeddings).filter
              (fun pr => pr.1.file_path != file_path)).map Prod.snd ++ embeddings)) := by
  constructor
  · exact add_chunks_of_empty s file_path content_hash chunks embeddings
  · intro h1 h2
    rw [add_chunks_not_empty s file_path content_hash chunks embeddings h1 h2]
    refine ⟨rfl, dictGet_set_self s.file_hashes file_path content_hash, ?_, ?_, ?_⟩
    · rw [List.length_append, newMetadata_length, length_filter_fp file_path s.metadata]
    · intro m hm hfp
      rcases List.mem_append.mp hm with hmf | hmn
      · have := (List.mem_filter.mp hmf).2
        rw [hfp] at this
        simp at this
      · exact hmn
    · intro hal
      rw [delete_file_chunks_embeddings s file_path hal]

/-- Witness for C3 at a concrete store: re-indexing `a.py`, which held one
chunk, with two new chunks yields `2 - 1 + 2 = 3` chunks in total and the
stored hash becomes the supplied one. -/
theorem claim_c3_witness :
    (add_chunks sampleStore2 "a.py"
      [⟨none, none, some "u"⟩, ⟨none, none, some "v"⟩] [[5], [6]] "H").metadata.length = 3
    ∧ dictGet (add_chunks sampleStore2 "a.py"
      [⟨none, none, some "u"⟩, ⟨none, none, some "v"⟩] [[5], [6]] "H").file_hashes "a.py"
      = some "H" := by
  have h := (claim_c3 sampleStore2 "a.py" "H"
    [⟨none, none, some "u"⟩, ⟨none, none, some "v"⟩] [[5], [6]]).2
    (by decide) (by decide)
  refine ⟨?_, h.2.1⟩
  rw [h.2.2.1]
  decide

/-! ## Characterization of `delete_file` -/

theorem dictErase_of_not_mem {β : Type} (d : List (String × β)) (k : String)
    (h : d.any (fun p => p.1 == k) = false) : dictErase d k = d := by
  refine List.filter_eq_self.mpr ?_
  intro p hp
  have := List.any_eq_false.mp h p hp
  simpa [bne] using this

theorem delete_file_chunks_noop {α : Type} (s : VectorStore α) (fp : String)
    (h : ∀ m ∈ s.metadata, m.file_path ≠ fp) : delete_file_chunks s fp = s := by
  unfold delete_file_chunks
  by_cases h0 : s.metadata.length = 0
  · rw [if_pos h0]
  · rw [if_neg h0, if_pos]
    rw [keepIndices_length]
    have : s.metadata.filter (fun m => m.file_path != fp) = s.metadata :=
      List.filter_eq_self.mpr (fun m hm => by simpa [bne] using h m hm)
    rw [this]

theorem delete_file_metadata {α : Type} (s : VectorStore α) (fp : String) :
    (delete_file s fp).metadata = s.metadata.filter (fun m => m.file_path != fp) := by
  unfold delete_file
  dsimp only
  split <;> simp [delete_file_chunks_metadata]

theorem delete_file_embeddings {α : Type} (s : VectorStore α) (fp : String)
    (hal : s.embeddings.length = s.metadata.length) :
    (delete_file s fp).embeddings
      = ((s.metadata.zip s.embeddings).filter (fun pr => pr.1.file_path != fp)).map
          Prod.snd := by
  unfold delete_file
  dsimp only
  split <;> simp [delete_file_chunks_embeddings s fp hal]

theorem delete_file_repo_id {α : Type} (s : VectorStore α) (fp : String) :
    (delete_file s fp).repo_id = s.repo_id := by
  unfold delete_file
  dsimp only
  split <;> simp [delete_file_chunks_repo_id]

theorem delete_file_file_hashes {α : Type} (s : VectorStore α) (fp : String) :
    (delete_file s fp).file_hashes = dictErase s.file_hashes fp := by
  unfold delete_file
  dsimp only
  rw [delete_file_chunks_file_hashes]
  by_cases hany : (s.file_hashes.any fun p => p.1 == fp) = true
  · rw [if_pos hany]
  · rw [if_neg hany, delete_file_chunks_file_hashes,
      dictErase_of_not_mem s.file_hashes fp (Bool.eq_false_iff.mpr hany)]

theorem delete_file_noop {α : Type} (s : VectorStore α) (fp : String)
    (h1 : dictGet s.file_hashes fp = none) (h2 : ∀ m ∈ s.metadata, m.file_path ≠ fp) :
    delete_file s fp = s := by
  unfold delete_file
  dsimp only
  rw [delete_file_chunks_noop s fp h2, if_neg]
  rw [← dictGet_isSome_iff_any, h1]
  simp

/-! ## Permutation and membership facts about the stable descending sort -/

theorem insertDesc_perm {α : Type} [LinearOrderedField α] (x : Nat × α) (l : List (Nat × α)) :
    (insertDesc x l).Perm (x :: l) := by
  induction l with
  | nil => exact List.Perm.refl _
  | cons y ys ih =>
    unfold insertDesc
    split
    · exact (ih.cons y).trans (List.Perm.swap x y ys)
    · exact List.Perm.refl _

theorem foldl_insertDesc_perm {α : Type} [LinearOrderedField α] :
    ∀ (l acc : List (Nat × α)),
      (l.foldl (fun a x => insertDesc x a) acc).Perm (acc ++ l)
  | [], acc => by simp
  | x :: l, acc => by
    rw [List.foldl_cons]
    refine (foldl_insertDesc_perm l (insertDesc x acc)).trans ?_
    refine (List.Perm.append_right l (insertDesc_perm x acc)).trans ?_
    exact List.perm_middle.symm

theorem sortDesc_perm {α : Type} [LinearOrderedField α] (l : List (Nat × α)) :
    (sortDesc l).Perm l := by
  simpa using foldl_insertDesc_perm l []

theorem mem_of_mem_sortDesc {α : Type} [LinearOrderedField α] {x : Nat × α}
    {l : List (Nat × α)} (h : x ∈ sortDesc l) : x ∈ l :=
  (sortDesc_perm l).mem_iff.mp h

theorem valid_indices_lt {α : Type} (s : VectorStore α) (fd : List (String × JVal)) :
    ∀ i ∈ valid_indices s fd, i < s.metadata.length := by
  intro i hi
  unfold valid_indices at hi
  split at hi
  · exact List.mem_range.mp hi
  · exact List.mem_range.mp (List.mem_filter.mp hi).1

/-- Every result of `query` is the formatted record of some metadata row
together with that row's similarity score. -/
theorem query_mem {α : Type} [LinearOrderedField α] (sqrtFn : α → α) (s : VectorStore α)
    (q : List α) (n_results : Nat) (fd : List (String × JVal)) :
    ∀ r ∈ query sqrtFn s q n_results fd, ∃ i, i < s.metadata.length ∧
      r = formatResult (s.metadata.getD i default)
            ((similarities sqrtFn s q).getD i 0) := by
  intro r hr
  unfold query at hr
  split at hr
  · exact absurd hr (List.not_mem_nil r)
  · split at hr
    · exact absurd hr (List.not_mem_nil r)
    · obtain ⟨p, hp, rfl⟩ := List.mem_map.mp hr
      unfold top_indices at hp
      have hp1 : p ∈ sortDesc ((valid_indices s fd).map
          (fun i => (i, (similarities sqrtFn s q).getD i 0))) :=
        (List.take_sublist n_results _).mem hp
      have hp2 := mem_of_mem_sortDesc hp1
      obtain ⟨i, hi, rfl⟩ := List.mem_map.mp hp2
      exact ⟨i, valid_indices_lt s fd i hi, rfl⟩

/-! ## Key-count lemma for the hash dict -/

theorem length_dictErase {β : Type} (d : List (String × β)) (k : String) :
    (dictErase d k).length = d.length - d.countP (fun p => p.1 == k) := by
  unfold dictErase
  induction d with
  | nil => simp
  | cons a d ih =>
    have hcle : d.countP (fun p => p.1 == k) ≤ d.length :=
      List.countP_le_length (fun p : String × β => p.1 == k)
    simp only [bne] at ih
    by_cases ha : a.1 == k <;>
      simp [List.filter_cons, List.countP_cons, bne, ha, ih] <;> omega

/-- Claim C8: `delete_file` removes exactly the chunks and the hash entry of
the path, is the identity when the path is not indexed, afterwards no query
result references the path, and the indexed-file count drops by one when the
path was indexed (hash keys being unique as in a Python dict). -/
theorem claim_c8 {α : Type} [LinearOrderedField α] (s : VectorStore α) (fp : String) :
    (delete_file s fp).metadata = s.metadata.filter (fun m => m.file_path != fp) ∧
    (delete_file s fp).file_hashes = dictErase s.file_hashes fp ∧
    dictGet (delete_file s fp).file_hashes fp = none ∧
    (s.embeddings.length = s.metadata.length →
      (delete_file s fp).embeddings
        = ((s.metadata.zip s.embeddings).filter
            (fun pr => pr.1.file_path != fp)).map Prod.snd) ∧
    (dictGet s.file_hashes fp = none → (∀ m ∈ s.metadata, m.file_path ≠ fp) →
      delete_file s fp = s) ∧
    (∀ (sqrtFn : α → α) (q : List α) (n_results : Nat) (fd : List (String × JVal)),
      ∀ r ∈ query sqrtFn (delete_file s fp) q n_results fd,
        r.metadata.file_path ≠ fp) ∧
    (dictGet s.file_hashes fp ≠ none → (s.file_hashes.map Prod.fst).Nodup →
      (get_stats (delete_file s fp)).indexed_files + 1 = (get_stats s).indexed_files) := by
  refine ⟨delete_file_metadata s fp, delete_file_file_hashes s fp, ?_,
    delete_file_embeddings s fp, delete_file_noop s fp, ?_, ?_⟩
  · rw [delete_file_file_hashes]
    exact dictGet_erase_self s.file_hashes fp
  · intro sqrtFn q n_results fd r hr
    obtain ⟨i, hi, rfl⟩ := query_mem sqrtFn (delete_file s fp) q n_results fd r hr
    set m := (delete_file s fp).metadata.getD i default with hm
    have hmem : m ∈ (delete_file s fp).metadata := by
      rw [hm, List.getD_eq_getElem _ _ hi]
      exact List.getElem_mem hi
    rw [delete_file_metadata] at hmem
    have hprop := (List.mem_filter.mp hmem).2
    simpa [formatResult, bne] using hprop
  · intro hmem hnd
    have hisSome : (dictGet s.file_hashes fp).isSome = true := by
      cases hg : dictGet s.file_hashes fp
      · exact absurd hg hmem
      · rfl
    rw [dictGet_isSome_iff_any] at hisSome
    have hfpmem : fp ∈ s.file_hashes.map Prod.fst := by
      obtain ⟨p, hp, hpk⟩ := List.any_eq_true.mp hisSome
      exact List.mem_map.mpr ⟨p, hp, by simpa using hpk.symm⟩
    have hcount : (s.file_hashes.map Prod.fst).count fp = 1 :=
      List.count_eq_one_of_mem hnd hfpmem
    have hcountP : s.file_hashes.countP (fun p => p.1 == fp) = 1 := by
      rw [List.count] at hcount
      rw [← hcount, List.countP_map]
      rfl
    have hlen : 1 ≤ s.file_hashes.length := by
      have := List.length_pos_of_mem hfpmem
      simpa using this
    simp only [get_stats, delete_file_file_hashes, length_dictErase, hcountP]
    omega

/-- Witness for C8 at a concrete two-file store: deleting `a.py` leaves only
the `b.py` chunk, erases the hash entry and drops `indexed_files` to one. -/
theorem claim_c8_witness :
    (delete_file sampleStore2 "a.py").metadata = [⟨"b.py:0", "b.py", 0, "code", "", "y"⟩]
    ∧ dictGet (delete_file sampleStore2 "a.py").file_hashes "a.py" = none
    ∧ (get_stats (delete_file sampleStore2 "a.py")).indexed_files + 1 = 2 := by
  have h := claim_c8 sampleStore2 "a.py"
  refine ⟨?_, h.2.2.1, ?_⟩
  · rw [h.1]
    decide
  · have := h.2.2.2.2.2.2 (by decide) (by decide)
    rw [this]
    decide

/-! ## The hash-entry and chunk-set invariant (C9) and the alignment refinement (C1) -/

theorem hashChunkInv_empty {α : Type} (rid : String) :
    HashChunkInv (VectorStore.empty (α := α) rid) := by
  intro p
  simp [VectorStore.empty, dictGet]

theorem newMetadata_ne_nil (fp : String) (chunks : List ChunkIn) (h : chunks ≠ []) :
    newMetadata fp chunks ≠ [] := by
  intro hnil
  have := congrArg List.length hnil
  rw [newMetadata_length] at this
  exact h (List.length_eq_zero.mp this)

theorem hashChunkInv_applyOp {α : Type} (s : VectorStore α) (op : StoreOp α)
    (hinv : HashChunkInv s) : HashChunkInv (applyOp s op) := by
  cases op with
  | add fp cs es ch =>
    by_cases hemp : cs = [] ∨ es = []
    · rw [applyOp, add_chunks_of_empty _ _ _ _ _ hemp]
      exact hinv
    · push_neg at hemp
      obtain ⟨h1, h2⟩ := hemp
      rw [applyOp, add_chunks_not_empty s fp ch cs es h1 h2]
      intro p
      dsimp only
      by_cases hp : p = fp
      · subst hp
        refine iff_of_true ?_ ?_
        · rw [dictGet_set_self]
          rfl
        · obtain ⟨m, hm⟩ := List.exists_mem_of_ne_nil _ (newMetadata_ne_nil p cs h1)
          exact ⟨m, List.mem_append_right _ hm, newMetadata_file_path p cs m hm⟩
      · rw [dictGet_set_other _ _ _ _ hp, hinv p]
        constructor
        · rintro ⟨m, hm, rfl⟩
          exact ⟨m, List.mem_append_left _
            (List.mem_filter.mpr ⟨hm, by simpa [bne] using hp⟩), rfl⟩
        · rintro ⟨m, hm, hfp2⟩
          rcases List.mem_append.mp hm with hmf | hmn
          · exact ⟨m, (List.mem_filter.mp hmf).1, hfp2⟩
          · exact absurd (hfp2.symm.trans (newMetadata_file_path fp cs m hmn)) hp
  | del fp =>
    intro p
    rw [applyOp, delete_file_file_hashes, delete_file_metadata]
    by_cases hp : p = fp
    · subst hp
      rw [dictGet_erase_self]
      refine iff_of_false (by simp) ?_
      rintro ⟨m, hm, rfl⟩
      have := (List.mem_filter.mp hm).2
      simp [bne] at this
    · rw [dictGet_erase_other _ _ _ hp, hinv p]
      constructor
      · rintro ⟨m, hm, rfl⟩
        exact ⟨m, List.mem_filter.mpr ⟨hm, by simpa [bne] using hp⟩, rfl⟩
      · rintro ⟨m, hm, hfp2⟩
        exact ⟨m, (List.mem_filter.mp hm).1, hfp2⟩

theorem hashChunkInv_foldl {α : Type} :
    ∀ (ops : List (StoreOp α)) (s : VectorStore α), HashChunkInv s →
      HashChunkInv (ops.foldl applyOp s)
  | [], s, hinv => hinv
  | op :: ops, s, hinv =>
    hashChunkInv_foldl ops (applyOp s op) (hashChunkInv_applyOp s op hinv)

/-- Claim C9: along every operation sequence from the empty store in which
each `add_chunks` call passes equally long (possibly empty) lists, a hash
entry exists for a path exactly when some stored chunk carries that path. -/
theorem claim_c9 {α : Type} (rid : String) (ops : List (StoreOp α))
    (hpre : ∀ op ∈ ops, AddPre op) : HashChunkInv (runOps rid ops) :=
  hashChunkInv_foldl ops (VectorStore.empty rid) (hashChunkInv_empty rid)

/-- Witness for C9: after adding `a.py` and `b.py` and deleting `a.py`, the
invariant instantiated at path `a.py` relates the missing hash entry to the
absence of `a.py` chunks. -/
theorem claim_c9_witness :
    (dictGet (runOps (α := ℚ) "r"
        [.add "a.py" [⟨none, none, none⟩] [[1]] "ha",
         .add "b.py" [⟨none, none, none⟩, ⟨none, none, none⟩] [[2], [3]] "hb",
         .del "a.py"]).file_hashes "a.py").isSome
      ↔ ∃ m ∈ (runOps (α := ℚ) "r"
        [.add "a.py" [⟨none, none, none⟩] [[1]] "ha",
         .add "b.py" [⟨none, none, none⟩, ⟨none, none, none⟩] [[2], [3]] "hb",
         .del "a.py"]).metadata, m.file_path = "a.py" := by
  refine claim_c9 "r" _ ?_ "a.py"
  intro op hop
  fin_cases hop <;> simp [AddPre]

theorem paired_applyOp {α : Type} (s : VectorStore α) (ps : List (Meta × List α))
    (op : StoreOp α) (hP : Paired s ps) (hpre : AddPre op) :
    Paired (applyOp s op) (pairedApply ps op) := by
  have hal : s.embeddings.length = s.metadata.length := by
    rw [hP.1, hP.2, List.length_map, List.length_map]
  cases op with
  | add fp cs es ch =>
    by_cases hemp : cs = [] ∨ es = []
    · have hemp' : (cs.isEmpty || es.isEmpty) = true := by
        rcases hemp with h | h <;> simp [h]
      rw [applyOp, add_chunks_of_empty _ _ _ _ _ hemp, pairedApply, pairedAdd, if_pos hemp']
      exact hP
    · push_neg at hemp
      obtain ⟨h1, h2⟩ := hemp
      have hlen : (newMetadata fp cs).length ≤ es.length := by
        rw [newMetadata_length]
        exact le_of_eq hpre
      rw [applyOp, add_chunks_not_empty s fp ch cs es h1 h2, pairedApply, pairedAdd,
        if_neg (by simp [List.isEmpty_iff, h1, h2])]
      constructor
      · show s.metadata.filter (fun m => m.file_path != fp) ++ newMetadata fp cs = _
        rw [List.map_append, List.map_fst_zip _ _ hlen, hP.1]
        rw [List.filter_map]
        rfl
      · show (delete_file_chunks s fp).embeddings ++ es = _
        rw [delete_file_chunks_embeddings s fp hal, List.map_append,
          List.map_snd_zip _ _ (by rw [newMetadata_length]; exact hpre.symm.le)]
        rw [hP.1, hP.2, List.zip_map']
        have heta : ps.map (fun p => (p.1, p.2)) = ps := by
          simp
        rw [heta]
  | del fp =>
    rw [applyOp, pairedApply]
    constructor
    · rw [delete_file_metadata, hP.1, List.filter_map]
      rfl
    · rw [delete_file_embeddings s fp hal, hP.1, hP.2, List.zip_map']
      have heta : ps.map (fun p => (p.1, p.2)) = ps := by simp
      rw [heta]

theorem paired_foldl {α : Type} :
    ∀ (ops : List (StoreOp α)) (s : VectorStore α) (ps : List (Meta × List α)),
      Paired s ps → (∀ op ∈ ops, AddPre op) →
      Paired (ops.foldl applyOp s) (ops.foldl pairedApply ps)
  | [], _, _, hP, _ => hP
  | op :: ops, s, ps, hP, hpre =>
    paired_foldl ops (applyOp s op) (pairedApply ps op)
      (paired_applyOp s ps op hP (hpre op (List.mem_cons_self op ops)))
      (fun o ho => hpre o (List.mem_cons_of_mem op ho))

/-- Claim C1: along every operation sequence from the empty store in which
each `add_chunks` call passes equally long non-empty lists, the store is the
two projections of the paired specification store, which keeps every
metadata record physically zipped with the embedding row supplied with it —
so the matrix has exactly one row per metadata record and row `i` is the
embedding supplied together with record `i`. -/
theorem claim_c1 {α : Type} (rid : String) (ops : List (StoreOp α))
    (hpre : ∀ op ∈ ops, C1Pre op) :
    (runOps rid ops).metadata = (pairedRun ops).map Prod.fst ∧
    (runOps rid ops).embeddings = (pairedRun ops).map Prod.snd ∧
    (runOps rid ops).embeddings.length = (runOps rid ops).metadata.length := by
  have hpre' : ∀ op ∈ ops, AddPre op := by
    intro op hop
    have := hpre op hop
    cases op with
    | add fp cs es ch => exact this.1
    | del fp => exact this
  have h : Paired (runOps rid ops) (pairedRun ops) :=
    paired_foldl ops (VectorStore.empty rid) [] ⟨rfl, rfl⟩ hpre'
  exact ⟨h.1, h.2, by rw [h.1, h.2, List.length_map, List.length_map]⟩

/-- Witness for C1 at a concrete three-operation sequence. -/
theorem claim_c1_witness :
    (runOps (α := ℚ) "r"
        [.add "a.py" [⟨none, none, none⟩] [[1]] "ha",
         .add "b.py" [⟨none, none, none⟩, ⟨none, none, none⟩] [[2], [3]] "hb",
         .del "a.py"]).embeddings
      = (pairedRun (α := ℚ)
        [.add "a.py" [⟨none, none, none⟩] [[1]] "ha",
         .add "b.py" [⟨none, none, none⟩, ⟨none, none, none⟩] [[2], [3]] "hb",
         .del "a.py"]).map Prod.snd := by
  refine (claim_c1 "r" _ ?_).2.1
  intro op hop
  fin_cases hop <;> simp [C1Pre]

/-- Claim C10: the read operations hand back the store unchanged; in the
state-passing embedding of the Python methods, whose bodies assign no
attribute of `self`, the returned state is the received one. -/
theorem claim_c10 {α : Type} [LinearOrderedField α] (sqrtFn : α → α) (s : VectorStore α)
    (file_path content : String) (q : List α) (n_results : Nat)
    (fd : List (String × JVal)) :
    (needs_update_run s file_path content).2 = s ∧
    (get_stats_run s).2 = s ∧
    (query_run sqrtFn s q n_results fd).2 = s :=
  ⟨rfl, rfl, rfl⟩

/-! ## Sortedness and stability of the ranking (C2) -/

theorem mem_insertDesc {α : Type} [LinearOrderedField α] {x y : Nat × α}
    {l : List (Nat × α)} : y ∈ insertDesc x l ↔ y = x ∨ y ∈ l := by
  rw [(insertDesc_perm x l).mem_iff]
  exact List.mem_cons

theorem insertDesc_pairwise {α : Type} [LinearOrderedField α] (x : Nat × α)
    (l : List (Nat × α))
    (hl : l.Pairwise (fun a b => b.2 ≤ a.2 ∧ (a.2 = b.2 → a.1 < b.1)))
    (hx : ∀ y ∈ l, y.1 < x.1) :
    (insertDesc x l).Pairwise (fun a b => b.2 ≤ a.2 ∧ (a.2 = b.2 → a.1 < b.1)) := by
  induction l with
  | nil => simp [insertDesc]
  | cons y ys ih =>
    rw [List.pairwise_cons] at hl
    rw [insertDesc]
    split
    case isTrue hle =>
      rw [List.pairwise_cons]
      constructor
      · intro z hz
        rcases mem_insertDesc.mp hz with rfl | hzys
        · exact ⟨hle, fun _ => hx y (List.mem_cons_self y ys)⟩
        · exact hl.1 z hzys
      · exact ih hl.2 (fun y' hy' => hx y' (List.mem_cons_of_mem y hy'))
    case isFalse hgt =>
      have hgt' : y.2 < x.2 := lt_of_not_le hgt
      rw [List.pairwise_cons]
      constructor
      · intro z hz
        rcases List.mem_cons.mp hz with rfl | hzys
        · exact ⟨le_of_lt hgt', fun he => absurd he (ne_of_gt hgt')⟩
        · have hyz := hl.1 z hzys
          exact ⟨le_of_lt (lt_of_le_of_lt hyz.1 hgt'),
            fun he => absurd he (ne_of_gt (lt_of_le_of_lt hyz.1 hgt'))⟩
      · exact List.pairwise_cons.mpr ⟨hl.1, hl.2⟩

theorem foldl_insertDesc_pairwise {α : Type} [LinearOrderedField α] :
    ∀ (l acc : List (Nat × α)),
      acc.Pairwise (fun a b => b.2 ≤ a.2 ∧ (a.2 = b.2 → a.1 < b.1)) →
      (∀ y ∈ acc, ∀ x ∈ l, y.1 < x.1) →
      l.Pairwise (fun a b => a.1 < b.1) →
      (l.foldl (fun a x => insertDesc x a) acc).Pairwise
        (fun a b => b.2 ≤ a.2 ∧ (a.2 = b.2 → a.1 < b.1))
  | [], _, hacc, _, _ => hacc
  | x :: l, acc, hacc, hcross, hl => by
    rw [List.foldl_cons]
    rw [List.pairwise_cons] at hl
    refine foldl_insertDesc_pairwise l (insertDesc x acc) ?_ ?_ hl.2
    · exact insertDesc_pairwise x acc hacc
        (fun y hy => hcross y hy x (List.mem_cons_self x l))
    · intro y hy z hz
      rcases mem_insertDesc.mp hy with rfl | hyacc
      · exact hl.1 z hz
      · exact hcross y hyacc z (List.mem_cons_of_mem x hz)

theorem valid_indices_pairwise {α : Type} (s : VectorStore α)
    (fd : List (String × JVal)) :
    (valid_indices s fd).Pairwise (fun a b => a < b) := by
  unfold valid_indices
  split
  · exact List.pairwise_lt_range _
  · exact (List.pairwise_lt_range _).filter _

theorem top_indices_pairwise {α : Type} [LinearOrderedField α] (sqrtFn : α → α)
    (s : VectorStore α) (q : List α) (n_results : Nat) (fd : List (String × JVal)) :
    (top_indices sqrtFn s q n_results fd).Pairwise
      (fun a b => b.2 ≤ a.2 ∧ (a.2 = b.2 → a.1 < b.1)) := by
  unfold top_indices
  refine List.Pairwise.sublist (List.take_sublist _ _) ?_
  unfold sortDesc
  refine foldl_insertDesc_pairwise _ [] List.Pairwise.nil (by simp) ?_
  exact (valid_indices_pairwise s fd).map _ (fun a b hab => hab)

/-- Claim C2: `query` returns at most `n_results` results, sorted by
non-decreasing distance (non-increasing similarity); each result is the
formatted metadata record of some row with `distance = 1 - cosineSim` of the
query vector and that row, under the epsilon-guarded normalization; and the
ranking is stable: among equal similarities the row order (insertion order)
is preserved, expressed by the strictly increasing indices of `top_indices`
on ties. -/
theorem claim_c2 {α : Type} [LinearOrderedField α] (sqrtFn : α → α) (s : VectorStore α)
    (q : List α) (n_results : Nat) (fd : List (String × JVal))
    (hq : q ≠ []) (hal : s.embeddings.length = s.metadata.length) :
    (query sqrtFn s q n_results fd).length ≤ n_results ∧
    (query sqrtFn s q n_results fd).Pairwise (fun a b => a.distance ≤ b.distance) ∧
    (∀ r ∈ query sqrtFn s q n_results fd, ∃ i, i < s.metadata.length ∧
      r = formatResult (s.metadata.getD i default)
            (cosineSim sqrtFn q (s.embeddings.getD i [])) ∧
      r.distance = 1 - cosineSim sqrtFn q (s.embeddings.getD i [])) ∧
    (top_indices sqrtFn s q n_results fd).Pairwise
      (fun a b => b.2 ≤ a.2 ∧ (a.2 = b.2 → a.1 < b.1)) := by
  have hsim : ∀ i, i < s.metadata.length →
      (similarities sqrtFn s q).getD i 0 = cosineSim sqrtFn q (s.embeddings.getD i []) := by
    intro i hi
    have hi' : i < s.embeddings.length := by omega
    unfold similarities
    rw [List.getD_eq_getElem _ _ (by simpa using hi'), List.getElem_map,
      List.getD_eq_getElem _ _ hi']
  refine ⟨?_, ?_, ?_, top_indices_pairwise sqrtFn s q n_results fd⟩
  · unfold query
    split
    · simp
    · split
      · simp
      · rw [List.length_map]
        unfold top_indices
        exact List.length_take_le _ _
  · unfold query
    split
    · exact List.Pairwise.nil
    · split
      · exact List.Pairwise.nil
      · refine (top_indices_pairwise sqrtFn s q n_results fd).map _ ?_
        intro a b hab
        show 1 - a.2 ≤ 1 - b.2
        exact sub_le_sub_left hab.1 1
  · intro r hr
    obtain ⟨i, hi, hre⟩ := query_mem sqrtFn s q n_results fd r hr
    rw [hsim i hi] at hre
    exact ⟨i, hi, hre, by rw [hre]; rfl⟩

/-- Witness for C2 at a concrete store and query vector. -/
theorem claim_c2_witness :
    (query (fun x => x) sampleStore2 [1] 5 []).length ≤ 5 ∧
    (top_indices (fun x => x) sampleStore2 [1] 5 []).Pairwise
      (fun a b => b.2 ≤ a.2 ∧ (a.2 = b.2 → a.1 < b.1)) := by
  have h := claim_c2 (fun x => x) sampleStore2 [1] 5 [] (by decide) (by decide)
  exact ⟨h.1, h.2.2.2⟩

/-! ## The chunking policy (C5) -/

theorem windowChunk_zero (file_path : String) (lines : List String) (i0 : Nat) :
    windowChunk file_path lines i0 0
      = ⟨String.intercalate "\n" (lines.take 50), "code_chunk",
         file_path ++ ":L" ++ toString (i0 + 1) ++ "-"
           ++ toString (i0 + (lines.take 50).length)⟩ := by
  unfold windowChunk
  simp [List.length_take]

theorem windowChunk_succ (file_path : String) (lines : List String) (i0 j : Nat) :
    windowChunk file_path lines i0 (j + 1)
      = windowChunk file_path (lines.drop 50) (i0 + 50) j := by
  unfold windowChunk
  have e1 : lines.drop (50 * (j + 1)) = (lines.drop 50).drop (50 * j) := by
    rw [List.drop_drop]
    congr 1
    ring
  have e2 : i0 + 50 * (j + 1) + 1 = i0 + 50 + 50 * j + 1 := by ring
  have e3 : i0 + 50 * (j + 1) + min 50 (lines.length - 50 * (j + 1))
      = i0 + 50 + 50 * j + min 50 ((lines.drop 50).length - 50 * j) := by
    simp only [List.length_drop]
    omega
  rw [e1, e2, e3]

theorem chunk_windows_closed (file_path : String) :
    ∀ (n : Nat) (lines : List String) (i0 : Nat), lines.length ≤ n →
      chunk_windows file_path i0 lines
        = (List.range ((lines.length + 49) / 50)).map (windowChunk file_path lines i0)
  | _, [], i0, _ => by
    simp [chunk_windows]
  | 0, x :: xs, _, h => by
    simp at h
  | n + 1, x :: xs, i0, h => by
    have hrest : ((x :: xs).drop 50).length ≤ n := by
      simp only [List.length_drop, List.length_cons]
      simp only [List.length_cons] at h
      omega
    rw [chunk_windows]
    rw [chunk_windows_closed file_path n ((x :: xs).drop 50) (i0 + 50) hrest]
    have harith : ((x :: xs).length + 49) / 50 = (((x :: xs).drop 50).length + 49) / 50 + 1 := by
      simp only [List.length_drop, List.length_cons]
      omega
    rw [harith, List.range_succ_eq_map, List.map_cons, List.map_map]
    congr 1
    · rw [windowChunk_zero]
    · refine (List.map_congr_left ?_).symm
      intro j _
      show windowChunk file_path (x :: xs) i0 (j + 1) = _
      rw [windowChunk_succ]

/-- Claim C5: for a file whose language the symbol extractor supports,
`_chunk_code` emits the `file_summary` chunk followed by: the single
`full_file` chunk holding the entire content when it is under 4000
characters, and otherwise one `code_chunk` per consecutive fifty-line
window, named `path:L{start}-{end}` with inclusive line numbers and a
possibly shorter final window; a 130-line file of 4000 or more characters
yields the summary plus exactly three windows of 50, 50 and 30 lines named
`:L1-50`, `:L51-100` and `:L101-130`. -/
theorem claim_c5 (summary file_path content : String) :
    (content.length < 4000 →
      chunk_code true summary file_path content
        = [⟨"File: " ++ file_path ++ "\n\n" ++ summary, "file_summary", file_path⟩,
           ⟨content, "full_file", file_path⟩]) ∧
    (4000 ≤ content.length →
      chunk_code true summary file_path content
        = ⟨"File: " ++ file_path ++ "\n\n" ++ summary, "file_summary", file_path⟩
            :: (List.range (((pySplitLines content).length + 49) / 50)).map
                 (windowChunk file_path (pySplitLines content) 0)) ∧
    (4000 ≤ content.length → (pySplitLines content).length = 130 →
      chunk_code true summary file_path content
        = [⟨"File: " ++ file_path ++ "\n\n" ++ summary, "file_summary", file_path⟩,
           windowChunk file_path (pySplitLines content) 0 0,
           windowChunk file_path (pySplitLines content) 0 1,
           windowChunk file_path (pySplitLines content) 0 2]
      ∧ ((pySplitLines content).take 50).length = 50
      ∧ (((pySplitLines content).drop 50).take 50).length = 50
      ∧ (((pySplitLines content).drop 100).take 50).length = 30
      ∧ (windowChunk file_path (pySplitLines content) 0 0).name = file_path ++ ":L1-50"
      ∧ (windowChunk file_path (pySplitLines content) 0 1).name = file_path ++ ":L51-100"
      ∧ (windowChunk file_path (pySplitLines content) 0 2).name
          = file_path ++ ":L101-130") := by
  have hclosed := chunk_windows_closed file_path (pySplitLines content).length
    (pySplitLines content) 0 le_rfl
  refine ⟨?_, ?_, ?_⟩
  · intro h
    simp [chunk_code, h]
  · intro h
    have hnl : ¬ content.length < 4000 := not_lt.mpr h
    simp only [chunk_code, if_pos rfl, if_neg hnl, hclosed]
    rfl
  · intro h hlen
    have hnl : ¬ content.length < 4000 := not_lt.mpr h
    have hmain : chunk_code true summary file_path content
        = [⟨"File: " ++ file_path ++ "\n\n" ++ summary, "file_summary", file_path⟩,
           windowChunk file_path (pySplitLines content) 0 0,
           windowChunk file_path (pySplitLines content) 0 1,
           windowChunk file_path (pySplitLines content) 0 2] := by
      simp only [chunk_code, if_pos rfl, if_neg hnl, hclosed, hlen]
      rfl
    refine ⟨hmain, ?_, ?_, ?_, ?_, ?_, ?_⟩
    · rw [List.length_take, hlen]
      omega
    · rw [List.length_take, List.length_drop, hlen]
      omega
    · rw [List.length_take, List.length_drop, hlen]
      omega
    · show file_path ++ ":L" ++ toString (0 + 50 * 0 + 1) ++ "-"
          ++ toString (0 + 50 * 0 + min 50 ((pySplitLines content).length - 50 * 0))
        = file_path ++ ":L1-50"
      rw [hlen]
      simp only [String.append_assoc]
      congr 1
    · show file_path ++ ":L" ++ toString (0 + 50 * 1 + 1) ++ "-"
          ++ toString (0 + 50 * 1 + min 50 ((pySplitLines content).length - 50 * 1))
        = file_path ++ ":L51-100"
      rw [hlen]
      simp only [String.append_assoc]
      congr 1
    · show file_path ++ ":L" ++ toString (0 + 50 * 2 + 1) ++ "-"
          ++ toString (0 + 50 * 2 + min 50 ((pySplitLines content).length - 50 * 2))
        = file_path ++ ":L101-130"
      rw [hlen]
      simp only [String.append_assoc]
      congr 1

theorem splitNlChars_ne_nil : ∀ l : List Char, splitNlChars l ≠ []
  | [] => by simp [splitNlChars]
  | c :: rest => by
    simp only [splitNlChars]
    cases h : splitNlChars rest with
    | nil => simp
    | cons a t => by_cases hc : c = '\n' <;> simp [hc]

theorem splitNlChars_no_nl : ∀ l : List Char, '\n' ∉ l → splitNlChars l = [l]
  | [], _ => rfl
  | c :: rest, h => by
    have hc : ¬ c = '\n' := fun e => h (by rw [← e]; exact List.mem_cons_self c rest)
    have hrest : '\n' ∉ rest := fun hr => h (List.mem_cons_of_mem c hr)
    simp only [splitNlChars, splitNlChars_no_nl rest hrest]
    simp [hc]

theorem splitNlChars_append_nl : ∀ xs rest : List Char, '\n' ∉ xs →
    splitNlChars (xs ++ '\n' :: rest) = xs :: splitNlChars rest
  | [], rest, _ => by
    simp only [List.nil_append, splitNlChars]
    cases h : splitNlChars rest with
    | nil => exact absurd h (splitNlChars_ne_nil rest)
    | cons a t => simp
  | x :: xs, rest, h => by
    have hx : ¬ x = '\n' := fun e => h (by rw [← e]; exact List.mem_cons_self x _)
    have hxs : '\n' ∉ xs := fun hr => h (List.mem_cons_of_mem x hr)
    simp only [List.cons_append, splitNlChars, List.append_eq]
    rw [splitNlChars_append_nl xs rest hxs]
    simp [hx]

theorem splitNlChars_intercalated :
    ∀ (l : List (List Char)) (first : List Char), '\n' ∉ first → (∀ x ∈ l, '\n' ∉ x) →
      splitNlChars (first ++ (l.map (fun x => '\n' :: x)).flatten) = first :: l
  | [], first, hf, _ => by simp [splitNlChars_no_nl first hf]
  | x :: l, first, hf, hl => by
    have hstep : first ++ ((x :: l).map (fun y => '\n' :: y)).flatten
        = first ++ '\n' :: (x ++ (l.map (fun y => '\n' :: y)).flatten) := by
      simp
    rw [hstep, splitNlChars_append_nl first _ hf,
      splitNlChars_intercalated l x (hl x (List.mem_cons_self x l))
        (fun y hy => hl y (List.mem_cons_of_mem x hy))]

theorem intercalate_go_data (s : String) : ∀ (as : List String) (acc : String),
    (String.intercalate.go acc s as).data
      = acc.data ++ (as.map (fun a => s.data ++ a.data)).flatten
  | [], acc => by simp [String.intercalate.go]
  | a :: as, acc => by
    rw [String.intercalate.go, intercalate_go_data s as (acc ++ s ++ a)]
    simp

theorem intercalate_go_length (s : String) : ∀ (as : List String) (acc : String),
    (String.intercalate.go acc s as).length
      = acc.length + (as.map (fun a => s.length + a.length)).sum
  | [], acc => by simp [String.intercalate.go]
  | a :: as, acc => by
    rw [String.intercalate.go, intercalate_go_length s as (acc ++ s ++ a)]
    simp
    omega

theorem pySplitLines_intercalate (a : String) (as : List String)
    (ha : '\n' ∉ a.data) (has : ∀ x ∈ as, '\n' ∉ x.data) :
    pySplitLines (String.intercalate "\n" (a :: as)) = a :: as := by
  unfold pySplitLines
  rw [String.intercalate, intercalate_go_data]
  have hdata : (as.map (fun x => ("\n" : String).data ++ x.data))
      = (as.map String.data).map (fun x => '\n' :: x) := by
    rw [List.map_map]
    rfl
  rw [hdata, splitNlChars_intercalated (as.map String.data) a.data ha
    (fun x hx => by
      obtain ⟨y, hy, rfl⟩ := List.mem_map.mp hx
      exact has y hy)]
  rw [List.map_cons, List.map_map]
  congr 1
  have : ((fun l => (⟨l⟩ : String)) ∘ String.data) = id := by
    funext y
    rfl
  rw [this, List.map_id]

theorem c5Content_lines : pySplitLines c5Content = List.replicate 130 c5Line := by
  unfold c5Content
  rw [show List.replicate 130 c5Line = c5Line :: List.replicate 129 c5Line from rfl]
  rw [pySplitLines_intercalate c5Line (List.replicate 129 c5Line) (by decide)
    (fun x hx => by rw [List.eq_of_mem_replicate hx]; decide)]

theorem c5Content_length : c5Content.length = 4159 := by
  unfold c5Content
  rw [show List.replicate 130 c5Line = c5Line :: List.replicate 129 c5Line from rfl]
  rw [String.intercalate, intercalate_go_length, List.map_replicate, List.sum_replicate]
  decide

/-- Witness for C5: a two-line file yields the summary and full-file chunks,
and the 4159-character 130-line file yields four chunks whose last window
holds thirty lines. -/
theorem claim_c5_witness :
    chunk_code true "S" "a.py" "x\ny"
      = [⟨"File: a.py\n\nS", "file_summary", "a.py"⟩, ⟨"x\ny", "full_file", "a.py"⟩]
    ∧ (chunk_code true "S" "a.py" c5Content).length = 4
    ∧ (((pySplitLines c5Content).drop 100).take 50).length = 30 := by
  have h4000 : 4000 ≤ c5Content.length := by
    rw [c5Content_length]
    omega
  have hlines : (pySplitLines c5Content).length = 130 := by
    rw [c5Content_lines, List.length_replicate]
  refine ⟨?_, ?_, ?_⟩
  · have h := (claim_c5 "S" "a.py" "x\ny").1 (by decide)
    rw [h]
    rfl
  · have h := ((claim_c5 "S" "a.py" c5Content).2.2 h4000 hlines).1
    rw [h]
    rfl
  · exact ((claim_c5 "S" "a.py" c5Content).2.2 h4000 hlines).2.2.2.1

/-! ## KeyManager round-robin rotation (C6) -/

theorem get_next_key_no_cooldowns (now : ℚ) (keys : List String) (ci : Nat)
    (hne : keys ≠ []) (hci : ci < keys.length) :
    get_next_key now ⟨keys, ci, []⟩
      = (some (keys.getD ci ""), ⟨keys, (ci + 1) % keys.length, []⟩) := by
  obtain ⟨f, hf⟩ : ∃ f, keys.length = f + 1 :=
    ⟨keys.length - 1, by have := List.length_pos.mpr hne; omega⟩
  unfold get_next_key
  rw [if_neg (by simpa [List.isEmpty_iff] using hne)]
  show get_next_key_go now ci keys.length ⟨keys, ci, []⟩ = _
  rw [hf, get_next_key_go]
  simp [is_key_ready, dictGet, hf]

theorem runCalls_no_cooldowns (now : ℚ) (keys : List String) (hne : keys ≠ []) :
    ∀ (n ci : Nat), ci < keys.length →
      (runCalls now n ⟨keys, ci, []⟩).1
        = (List.range n).map (fun j => some (keys.getD ((ci + j) % keys.length) ""))
  | 0, ci, _ => by simp [runCalls]
  | n + 1, ci, hci => by
    rw [runCalls, get_next_key_no_cooldowns now keys ci hne hci]
    dsimp only
    rw [runCalls_no_cooldowns now keys hne n ((ci + 1) % keys.length)
      (Nat.mod_lt _ (List.length_pos.mpr hne))]
    rw [List.range_succ_eq_map, List.map_cons, List.map_map]
    congr 1
    · rw [Nat.add_zero, Nat.mod_eq_of_lt hci]
    · refine (List.map_congr_left ?_).symm
      intro j _
      simp only [Function.comp]
      have harith : ((ci + 1) % keys.length + j) % keys.length
          = (ci + (j + 1)) % keys.length := by
        rw [Nat.mod_add_mod]
        exact congrArg (· % keys.length) (by omega)
      rw [harith]

theorem range_map_eq_rotate (keys : List String) (hne : keys ≠ []) (ci : Nat) :
    (List.range keys.length).map (fun j => some (keys.getD ((ci + j) % keys.length) ""))
      = (keys.rotate ci).map some := by
  refine List.ext_getElem (by simp [List.length_rotate]) ?_
  intro j h1 h2
  simp only [List.getElem_map, List.getElem_range]
  congr 1
  have hpos : 0 < keys.length := List.length_pos.mpr hne
  have h2' : j < (keys.rotate ci).length := by simpa using h2
  have hmod2 : (j + ci) % keys.length < keys.length := Nat.mod_lt _ hpos
  have hr := List.get_rotate keys ci ⟨j, h2'⟩
  rw [List.get_eq_getElem, List.get_eq_getElem] at hr
  have hgr : (keys.rotate ci)[j] = keys.getD ((j + ci) % keys.length) "" := by
    rw [List.getD_eq_getElem _ _ hmod2]
    exact hr
  rw [hgr]
  exact congrArg (fun i => keys.getD i "") (congrArg (· % keys.length) (Nat.add_comm ci j))

theorem add_mod_cancel_lt {K a b : Nat} (h : (a + b) % K = a % K) (hbK : b < K) : b = 0 := by
  have h1 : a + b ≡ a + 0 [MOD K] := by
    unfold Nat.ModEq
    simpa using h
  have h2 : b ≡ 0 [MOD K] := Nat.ModEq.add_left_cancel' a h1
  exact Nat.eq_zero_of_dvd_of_lt (Nat.modEq_zero_iff_dvd.mp h2) hbK

theorem get_next_key_go_all_cooling (now : ℚ) (keys : List String)
    (cds : List (String × ℚ))
    (hac : ∀ k ∈ keys, ∃ t, dictGet cds k = some t ∧ ¬ now > t)
    (start : Nat) :
    ∀ (fuel ci : Nat), ci < keys.length → 1 ≤ fuel → fuel ≤ keys.length →
      (ci + fuel) % keys.length = start →
      get_next_key_go now start fuel ⟨keys, ci, cds⟩
        = (some (keys.getD ((ci + fuel - 1) % keys.length) ""), ⟨keys, start, cds⟩)
  | 0, ci, _, h1, _, _ => by omega
  | fuel + 1, ci, hci, _, hfK, hmod => by
    have hpos : 0 < keys.length := Nat.lt_of_le_of_lt (Nat.zero_le ci) hci
    have hkey : keys.getD ci "" ∈ keys := by
      rw [List.getD_eq_getElem _ _ hci]
      exact List.getElem_mem hci
    obtain ⟨t, htg, htn⟩ := hac _ hkey
    have hready : is_key_ready now cds (keys.getD ci "") = (false, cds) := by
      unfold is_key_ready
      rw [htg]
      simp [htn]
    rw [get_next_key_go]
    dsimp only
    rw [hready]
    dsimp only
    simp only [Bool.false_eq_true, if_false]
    by_cases hwrap : (ci + 1) % keys.length = start
    · have hf0 : fuel = 0 := by
        refine add_mod_cancel_lt (K := keys.length) (a := ci + 1) (b := fuel) ?_ (by omega)
        calc (ci + 1 + fuel) % keys.length
            = (ci + (fuel + 1)) % keys.length := congrArg (· % keys.length) (by omega)
          _ = start := hmod
          _ = (ci + 1) % keys.length := hwrap.symm
      subst hf0
      rw [if_pos hwrap]
      have hidx : (ci + (0 + 1) - 1) % keys.length = ci % keys.length :=
        congrArg (· % keys.length) (by omega)
      rw [hidx, Nat.mod_eq_of_lt hci, hwrap]
    · have hf1 : 1 ≤ fuel := by
        by_contra hlt
        have : fuel = 0 := by omega
        subst this
        exact hwrap hmod
      rw [if_neg hwrap]
      have hIH := get_next_key_go_all_cooling now keys cds hac start fuel
        ((ci + 1) % keys.length) (Nat.mod_lt _ hpos) hf1 (by omega) ?_
      · rw [hIH]
        have : ((ci + 1) % keys.length + fuel - 1) % keys.length
            = (ci + (fuel + 1) - 1) % keys.length := by
          have e1 : (ci + 1) % keys.length + fuel - 1
              = (ci + 1) % keys.length + (fuel - 1) := by omega
          rw [e1, Nat.mod_add_mod]
          exact congrArg (· % keys.length) (by omega)
        rw [this]
      · rw [Nat.mod_add_mod]
        rw [← hmod]
        exact congrArg (· % keys.length) (by omega)

theorem get_next_key_all_cooling (now : ℚ) (km : KeyManager) (hac : AllCooling now km)
    (hne : km.keys ≠ []) (hci : km.current_index < km.keys.length) :
    get_next_key now km
      = (some (km.keys.getD
          ((km.current_index + km.keys.length - 1) % km.keys.length) ""),
         ⟨km.keys, km.current_index, km.cooldowns⟩) := by
  obtain ⟨keys, ci, cds⟩ := km
  unfold get_next_key
  rw [if_neg (by simpa [List.isEmpty_iff] using hne)]
  refine get_next_key_go_all_cooling now keys cds hac ci keys.length ci hci ?_ le_rfl ?_
  · exact Nat.one_le_iff_ne_zero.mpr (by simpa [List.length_eq_zero] using hne)
  · rw [Nat.add_mod_right, Nat.mod_eq_of_lt hci]

/-- Counterexample to C6 as stated: with two credentials both cooling at the
call time, `get_next_key` returns `"b"`, the last credential examined, not
the credential `"a"` at the cursor's position. -/
theorem claim_c6_counterexample :
    dictGet [("a", (100 : ℚ)), ("b", 100)] "a" = some 100
    ∧ dictGet [("a", (100 : ℚ)), ("b", 100)] "b" = some 100
    ∧ ¬ (0 : ℚ) > 100
    ∧ (get_next_key 0 ⟨["a", "b"], 0, [("a", (100 : ℚ)), ("b", 100)]⟩).1 = some "b"
    ∧ ¬ (get_next_key 0 ⟨["a", "b"], 0, [("a", (100 : ℚ)), ("b", 100)]⟩).1
        = some ((["a", "b"] : List String).getD 0 "") := by
  decide

/-- Claim C6, amended: with no credential cooling, `K` consecutive calls
return the credentials in rotation starting at the cursor, each exactly once
when they are distinct; when every credential is cooling, the call returns
the last credential examined in the cycle, `keys[(cursor + K - 1) % K]`
(not the one at the cursor), leaving the cursor back at its starting
position and the cooldowns untouched. -/
theorem claim_c6_amended (km : KeyManager) (hne : km.keys ≠ [])
    (hci : km.current_index < km.keys.length) :
    (∀ now : ℚ, km.cooldowns = [] →
      (runCalls now km.keys.length km).1 = (km.keys.rotate km.current_index).map some) ∧
    (∀ now : ℚ, AllCooling now km →
      get_next_key now km
        = (some (km.keys.getD
            ((km.current_index + km.keys.length - 1) % km.keys.length) ""),
           ⟨km.keys, km.current_index, km.cooldowns⟩)) := by
  constructor
  · intro now hcd
    obtain ⟨keys, ci, cds⟩ := km
    dsimp only at hci hne hcd ⊢
    subst hcd
    rw [runCalls_no_cooldowns now keys hne keys.length ci hci,
      range_map_eq_rotate keys hne ci]
  · intro now hac
    exact get_next_key_all_cooling now km hac hne hci

/-- Witness for the amended C6: three fresh credentials rotate `a, b, c`,
and the two-credential all-cooling pool hands back `"b"`. -/
theorem claim_c6_amended_witness :
    (runCalls 0 (⟨["a", "b", "c"], 0, []⟩ : KeyManager).keys.length
        ⟨["a", "b", "c"], 0, []⟩).1
      = ((["a", "b", "c"] : List String).rotate 0).map some
    ∧ (get_next_key 0 ⟨["a", "b"], 0, [("a", (100 : ℚ)), ("b", 100)]⟩)
        = (some "b", ⟨["a", "b"], 0, [("a", (100 : ℚ)), ("b", 100)]⟩) := by
  constructor
  · exact (claim_c6_amended ⟨["a", "b", "c"], 0, []⟩ (by decide) (by decide)).1 0 rfl
  · have h := (claim_c6_amended ⟨["a", "b"], 0, [("a", (100 : ℚ)), ("b", 100)]⟩
      (by decide) (by decide)).2 0 ?_
    · simpa using h
    · intro k hk
      fin_cases hk
      · exact ⟨100, rfl, by norm_num⟩
      · exact ⟨100, rfl, by norm_num⟩

/-! ## Cooldown behaviour (C7) -/

theorem is_key_ready_none (now : ℚ) (cds : List (String × ℚ)) (key : String)
    (h : dictGet cds key = none) : is_key_ready now cds key = (true, cds) := by
  unfold is_key_ready
  rw [h]

theorem is_key_ready_cooling (now : ℚ) (cds : List (String × ℚ)) (key : String) (u : ℚ)
    (h : dictGet cds key = some u) (hn : ¬ now > u) :
    is_key_ready now cds key = (false, cds) := by
  unfold is_key_ready
  rw [h]
  dsimp only
  rw [if_neg hn]

theorem is_key_ready_expired (now : ℚ) (cds : List (String × ℚ)) (key : String) (u : ℚ)
    (h : dictGet cds key = some u) (hn : now > u) :
    is_key_ready now cds key = (true, dictErase cds key) := by
  unfold is_key_ready
  rw [h]
  dsimp only
  rw [if_pos hn]

theorem is_key_ready_of_false (now : ℚ) (cds : List (String × ℚ)) (key : String)
    (h : (is_key_ready now cds key).1 = false) : is_key_ready now cds key = (false, cds) := by
  cases hg : dictGet cds key with
  | none =>
    rw [is_key_ready_none now cds key hg] at h
    simp at h
  | some t =>
    by_cases hnt : now > t
    · rw [is_key_ready_expired now cds key t hg hnt] at h
      simp at h
    · exact is_key_ready_cooling now cds key t hg hnt

theorem get_next_key_go_avoids (now : ℚ) (keys : List String) (cds : List (String × ℚ))
    (k k' : String) (u : ℚ) (start : Nat)
    (hk'none : dictGet cds k' = none) (hku : dictGet cds k = some u) (hnow : now ≤ u) :
    ∀ (fuel ci : Nat), ci < keys.length → fuel ≤ keys.length →
      (ci + fuel) % keys.length = start →
      (∃ j, j < fuel ∧ keys.getD ((ci + j) % keys.length) "" = k') →
      (get_next_key_go now start fuel ⟨keys, ci, cds⟩).1 ≠ some k
      ∧ (get_next_key_go now start fuel ⟨keys, ci, cds⟩).2.keys = keys
      ∧ (get_next_key_go now start fuel ⟨keys, ci, cds⟩).2.current_index < keys.length
      ∧ dictGet (get_next_key_go now start fuel ⟨keys, ci, cds⟩).2.cooldowns k' = none
      ∧ dictGet (get_next_key_go now start fuel ⟨keys, ci, cds⟩).2.cooldowns k = some u
  | 0, ci, _, _, _, hj => by
    obtain ⟨j, hj0, _⟩ := hj
    omega
  | fuel + 1, ci, hci, hfK, hmod, hj => by
    have hpos : 0 < keys.length := Nat.lt_of_le_of_lt (Nat.zero_le ci) hci
    rw [get_next_key_go]
    dsimp only
    by_cases hr1 : (is_key_ready now cds (keys.getD ci "")).1 = true
    · rw [if_pos hr1]
      have hkne : keys.getD ci "" ≠ k := by
        intro he
        have hcool := is_key_ready_cooling now cds (keys.getD ci "") u
          (by rw [he]; exact hku) (not_lt.mpr hnow)
        rw [hcool] at hr1
        simp at hr1
      refine ⟨fun he => hkne (Option.some.inj he), rfl, Nat.mod_lt _ hpos, ?_, ?_⟩
      · cases hg : dictGet cds (keys.getD ci "") with
        | none =>
          rw [is_key_ready_none now cds _ hg]
          exact hk'none
        | some t =>
          by_cases hnt : now > t
          · rw [is_key_ready_expired now cds _ t hg hnt]
            by_cases hke : k' = keys.getD ci ""
            · rw [hke]
              exact dictGet_erase_self cds (keys.getD ci "")
            · rw [dictGet_erase_other cds (keys.getD ci "") k' hke]
              exact hk'none
          · rw [is_key_ready_cooling now cds _ t hg hnt] at hr1
            simp at hr1
      · cases hg : dictGet cds (keys.getD ci "") with
        | none =>
          rw [is_key_ready_none now cds _ hg]
          exact hku
        | some t =>
          by_cases hnt : now > t
          · rw [is_key_ready_expired now cds _ t hg hnt]
            rw [dictGet_erase_other cds (keys.getD ci "") k (fun he => hkne he.symm)]
            exact hku
          · rw [is_key_ready_cooling now cds _ t hg hnt] at hr1
            simp at hr1
    · have hreq : is_key_ready now cds (keys.getD ci "") = (false, cds) :=
        is_key_ready_of_false now cds (keys.getD ci "")
          (Bool.eq_false_iff.mpr hr1)
      rw [hreq]
      dsimp only
      rw [if_neg (by simp)]
      have hkk' : keys.getD ci "" ≠ k' := by
        intro he
        have := is_key_ready_none now cds (keys.getD ci "") (by rw [he]; exact hk'none)
        rw [this] at hreq
        simp at hreq
      obtain ⟨j, hjlt, hjpos⟩ := hj
      have hjne0 : j ≠ 0 := by
        intro h0
        subst h0
        have hez : (ci + 0) % keys.length = ci := by
          rw [Nat.add_zero, Nat.mod_eq_of_lt hci]
        rw [hez] at hjpos
        exact hkk' hjpos
      have hf1 : 1 ≤ fuel := by omega
      have hwrapne : ¬ (ci + 1) % keys.length = start := by
        intro hwrap
        have hf0 : fuel = 0 := by
          refine add_mod_cancel_lt (K := keys.length) (a := ci + 1) (b := fuel) ?_ (by omega)
          calc (ci + 1 + fuel) % keys.length
              = (ci + (fuel + 1)) % keys.length := congrArg (· % keys.length) (by omega)
            _ = start := hmod
            _ = (ci + 1) % keys.length := hwrap.symm
        omega
      rw [if_neg hwrapne]
      refine get_next_key_go_avoids now keys cds k k' u start hk'none hku hnow fuel
        ((ci + 1) % keys.length) (Nat.mod_lt _ hpos) (by omega) ?_ ?_
      · rw [Nat.mod_add_mod, ← hmod]
        exact congrArg (· % keys.length) (by omega)
      · refine ⟨j - 1, by omega, ?_⟩
        rw [Nat.mod_add_mod, ← hjpos]
        exact congrArg (fun i => keys.getD i "")
          (congrArg (· % keys.length) (by omega))

theorem get_next_key_avoids (now : ℚ) (keys : List String) (ci : Nat)
    (cds : List (String × ℚ)) (k k' : String) (u : ℚ)
    (hci : ci < keys.length) (hk' : k' ∈ keys)
    (hk'none : dictGet cds k' = none) (hku : dictGet cds k = some u) (hnow : now ≤ u) :
    (get_next_key now ⟨keys, ci, cds⟩).1 ≠ some k
    ∧ (get_next_key now ⟨keys, ci, cds⟩).2.keys = keys
    ∧ (get_next_key now ⟨keys, ci, cds⟩).2.current_index < keys.length
    ∧ dictGet (get_next_key now ⟨keys, ci, cds⟩).2.cooldowns k' = none
    ∧ dictGet (get_next_key now ⟨keys, ci, cds⟩).2.cooldowns k = some u := by
  have hne : keys ≠ [] := List.ne_nil_of_mem hk'
  unfold get_next_key
  rw [if_neg (by simpa [List.isEmpty_iff] using hne)]
  obtain ⟨p, hp, hpe⟩ := List.getElem_of_mem hk'
  refine get_next_key_go_avoids now keys cds k k' u ci hk'none hku hnow keys.length ci
    hci le_rfl ?_ ?_
  · rw [Nat.add_mod_right, Nat.mod_eq_of_lt hci]
  · refine ⟨(p + keys.length - ci) % keys.length, Nat.mod_lt _ (by omega), ?_⟩
    rw [Nat.add_mod_mod]
    have harith : ci + (p + keys.length - ci) = p + keys.length := by omega
    rw [harith, Nat.add_mod_right, Nat.mod_eq_of_lt hp]
    rw [List.getD_eq_getElem _ _ hp]
    exact hpe

theorem runCallsAt_avoids (keys : List String) (k k' : String) (u : ℚ) :
    ∀ (times : List ℚ) (ci : Nat) (cds : List (String × ℚ)),
      ci < keys.length → k' ∈ keys →
      dictGet cds k' = none → dictGet cds k = some u → (∀ τ ∈ times, τ ≤ u) →
      some k ∉ (runCallsAt times ⟨keys, ci, cds⟩).1
      ∧ (runCallsAt times ⟨keys, ci, cds⟩).2.keys = keys
      ∧ (runCallsAt times ⟨keys, ci, cds⟩).2.current_index < keys.length
      ∧ dictGet (runCallsAt times ⟨keys, ci, cds⟩).2.cooldowns k' = none
      ∧ dictGet (runCallsAt times ⟨keys, ci, cds⟩).2.cooldowns k = some u
  | [], ci, cds, hci, _, h1, h2, _ => ⟨by simp [runCallsAt], rfl, hci, h1, h2⟩
  | τ :: times, ci, cds, hci, hk', h1, h2, hτ => by
    have hsingle := get_next_key_avoids τ keys ci cds k k' u hci hk' h1 h2
      (hτ τ (List.mem_cons_self τ times))
    obtain ⟨hne1, hkeys, hci2, hk'2, hk2⟩ := hsingle
    rw [runCallsAt]
    dsimp only
    rcases hst : (get_next_key τ ⟨keys, ci, cds⟩).2 with ⟨ks2, ci2, cds2⟩
    rw [hst] at hkeys hci2 hk'2 hk2
    dsimp only at hkeys hci2 hk'2 hk2
    have hkeys' : keys = ks2 := hkeys.symm
    subst hkeys'
    have hIH := runCallsAt_avoids keys k k' u times ci2 cds2 hci2 hk' hk'2 hk2
      (fun τ' hτ' => hτ τ' (List.mem_cons_of_mem τ hτ'))
    refine ⟨?_, hIH.2.1, hIH.2.2.1, hIH.2.2.2.1, hIH.2.2.2.2⟩
    intro hmem
    rcases List.mem_cons.mp hmem with he | hm
    · exact hne1 he.symm
    · exact hIH.1 hm

/-- Counterexample to C7 as stated: with a single credential, immediately
after `report_rate_limit("a")` at time 0 the very next call, still inside
the cooldown window, returns `"a"` through the all-cooling fallback. -/
theorem claim_c7_counterexample :
    (get_next_key 0 (report_rate_limit 0 ⟨["a"], 0, []⟩ "a")).1 = some "a"
    ∧ (0 : ℚ) ≤ 0 + COOLDOWN_DURATION := by
  constructor
  · have hac : AllCooling 0 (report_rate_limit 0 ⟨["a"], 0, []⟩ "a") := by
      intro key hk
      fin_cases hk
      exact ⟨0 + COOLDOWN_DURATION, rfl, by norm_num [COOLDOWN_DURATION]⟩
    have h := get_next_key_all_cooling 0 (report_rate_limit 0 ⟨["a"], 0, []⟩ "a") hac
      (by decide) (by decide)
    rw [h]
    rfl
  · norm_num [COOLDOWN_DURATION]

/-- Claim C7, amended: after `report_rate_limit(k)` at time `t`, no
`get_next_key` call of a sequence made at times up to `t + 60` returns `k`,
provided some other credential `k'` carries no cooldown entry (when all
credentials are cooling, the fallback may still hand out `k`); and at any
time strictly past `t + 60` the credential `k` reads as ready again. -/
theorem claim_c7_amended (km : KeyManager) (k k' : String) (t : ℚ)
    (hci : km.current_index < km.keys.length) (hk' : k' ∈ km.keys) (hkk : k' ≠ k)
    (hcd : dictGet km.cooldowns k' = none) (times : List ℚ)
    (htimes : ∀ τ ∈ times, τ ≤ t + COOLDOWN_DURATION) :
    some k ∉ (runCallsAt times (report_rate_limit t km k)).1
    ∧ (∀ now' : ℚ, now' > t + COOLDOWN_DURATION →
        (is_key_ready now'
          ((runCallsAt times (report_rate_limit t km k)).2.cooldowns) k).1 = true) := by
  obtain ⟨keys, ci, cds⟩ := km
  dsimp only at hci hk' hcd ⊢
  simp only [report_rate_limit]
  have h1 : dictGet (dictSet cds k (t + COOLDOWN_DURATION)) k' = none := by
    rw [dictGet_set_other cds k k' _ hkk]
    exact hcd
  have h2 : dictGet (dictSet cds k (t + COOLDOWN_DURATION)) k
      = some (t + COOLDOWN_DURATION) :=
    dictGet_set_self cds k (t + COOLDOWN_DURATION)
  have hrun := runCallsAt_avoids keys k k' (t + COOLDOWN_DURATION) times ci
    (dictSet cds k (t + COOLDOWN_DURATION)) hci hk' h1 h2 htimes
  refine ⟨hrun.1, ?_⟩
  intro now' hn
  have hk2 := hrun.2.2.2.2
  rw [is_key_ready_expired now' _ k (t + COOLDOWN_DURATION) hk2 hn]

/-- Witness for the amended C7: two credentials, `"a"` reported at time 0,
then two calls at times 0 and 30 never return `"a"`, and at time 61 the
credential `"a"` is ready again. -/
theorem claim_c7_amended_witness :
    some "a" ∉ (runCallsAt [0, 30] (report_rate_limit 0 ⟨["a", "b"], 0, []⟩ "a")).1
    ∧ (is_key_ready 61
        ((runCallsAt [0, 30] (report_rate_limit 0 ⟨["a", "b"], 0, []⟩ "a")).2.cooldowns)
        "a").1 = true := by
  have h := claim_c7_amended ⟨["a", "b"], 0, []⟩ "a" "b" 0 (by decide)
    (by decide) (by decide) rfl [0, 30] (by
      intro τ hτ
      fin_cases hτ <;> norm_num [COOLDOWN_DURATION])
  exact ⟨h.1, h.2 61 (by norm_num [COOLDOWN_DURATION])⟩

/-! ## Freshness checking and the truncated hash (C4) -/

theorem compute_hash_length (c : String) : (compute_hash c).length = 16 := by
  show ((digestHex (sha256Digest (strBytes c))).take 16).length = 16
  rw [List.length_take]
  simp [digestHex, wordHex]

theorem char_toNat_lt (c : Char) : c.toNat < 1114112 := by
  show c.val.toNat < 1114112
  rcases c.valid with h | h
  · omega
  · omega

instance : Finite Char := by
  refine Finite.of_injective (fun c => (⟨c.toNat, char_toNat_lt c⟩ : Fin 1114112)) ?_
  intro a b h
  have h2 : a.toNat = b.toNat := by
    have := congrArg Fin.val h
    simpa using this
  exact Char.ext (UInt32.ext h2)

/-- By pigeonhole, the 16-hex-character truncation of SHA-256 collides on
some pair of distinct contents: there are infinitely many strings but only
finitely many strings of length sixteen. -/
theorem compute_hash_collision :
    ∃ c1 c2 : String, c1 ≠ c2 ∧ compute_hash c1 = compute_hash c2 := by
  have hfin : Finite {s : String // s.length = 16} := by
    refine Finite.of_injective
      (fun s => (fun i : Fin 16 => s.1.data.getD i 'a')) ?_
    intro s t h
    apply Subtype.ext
    apply String.ext
    have hs : s.1.data.length = 16 := s.2
    have ht : t.1.data.length = 16 := t.2
    refine List.ext_getElem (by omega) ?_
    intro n h1 h2
    have hfun : (↑s : String).data.getD n 'a' = (↑t : String).data.getD n 'a' :=
      congrFun h ⟨n, by omega⟩
    rw [List.getD_eq_getElem _ _ h1, List.getD_eq_getElem _ _ h2] at hfun
    exact hfun
  obtain ⟨c1, c2, hne, heq⟩ := Finite.exists_ne_map_eq_of_infinite
    (fun s : String => (⟨compute_hash s, compute_hash_length s⟩ : {s : String // s.length = 16}))
  exact ⟨c1, c2, hne, congrArg Subtype.val heq⟩

theorem needs_update_iff {α : Type} (s : VectorStore α) (fp c : String) :
    needs_update s fp c = true ↔ dictGet s.file_hashes fp ≠ some (compute_hash c) := by
  unfold needs_update
  cases hg : dictGet s.file_hashes fp with
  | none => simp
  | some stored => simp [bne]

theorem add_chunks_stores_hash {α : Type} (s : VectorStore α)
    (fp ch : String) (cs : List ChunkIn) (es : List (List α))
    (h1 : cs ≠ []) (h2 : es ≠ []) :
    dictGet (add_chunks s fp cs es ch).file_hashes fp = some ch := by
  rw [add_chunks_not_empty s fp ch cs es h1 h2]
  exact dictGet_set_self s.file_hashes fp ch

/-- Counterexample to C4 as stated: its final clause asserts that after
storing `hash(c)` every distinct content `c'` reads as stale, which makes
the 64-bit truncated SHA-256 injective on all strings — false by
pigeonhole, witnessed by a colliding pair. -/
theorem claim_c4_counterexample :
    ¬ (∀ c c' : String, c' ≠ c →
        needs_update (add_chunks (VectorStore.empty (α := ℚ) "r") "a.py"
          [⟨none, none, none⟩] [[1]] (compute_hash c)) "a.py" c' = true) := by
  intro hclaim
  obtain ⟨c1, c2, hne, heq⟩ := compute_hash_collision
  have hget : dictGet (add_chunks (VectorStore.empty (α := ℚ) "r") "a.py"
      [⟨none, none, none⟩] [[1]] (compute_hash c1)).file_hashes "a.py"
      = some (compute_hash c1) :=
    add_chunks_stores_hash _ _ _ _ _ (by simp) (by simp)
  exact (needs_update_iff _ _ _).mp (hclaim c1 c2 (Ne.symm hne)) (by rw [hget, heq])

/-- Claim C4, amended: `needs_update` is true exactly when the stored hash
differs from the content's hash (a missing entry counts as different); after
`add_chunks(path, …, hash(c))` the content `c` reads as fresh; and any
content whose truncated hash differs from that of `c` reads as stale — the
clause of C4 on all `c' ≠ c` holds only up to collisions of the 16-character
truncated SHA-256, which exist by pigeonhole. -/
theorem claim_c4_amended {α : Type} (s : VectorStore α) (fp c : String)
    (cs : List ChunkIn) (es : List (List α)) (h1 : cs ≠ []) (h2 : es ≠ []) :
    (needs_update s fp c = true ↔ dictGet s.file_hashes fp ≠ some (compute_hash c)) ∧
    needs_update (add_chunks s fp cs es (compute_hash c)) fp c = false ∧
    (∀ c' : String, compute_hash c' ≠ compute_hash c →
      needs_update (add_chunks s fp cs es (compute_hash c)) fp c' = true) := by
  have hget := add_chunks_stores_hash s fp (compute_hash c) cs es h1 h2
  refine ⟨needs_update_iff s fp c, ?_, ?_⟩
  · rw [Bool.eq_false_iff]
    intro hb
    exact (needs_update_iff _ _ _).mp hb (by rw [hget])
  · intro c' hc'
    refine (needs_update_iff _ _ _).mpr ?_
    rw [hget]
    intro he
    exact hc' (Option.some.inj he).symm

/-- Witness for the amended C4 at concrete contents: after indexing
`"hello"`, the same content is fresh and `"world"`, whose hash differs,
is stale. -/
theorem claim_c4_amended_witness :
    needs_update (add_chunks (VectorStore.empty (α := ℚ) "r") "a.py"
      [⟨none, none, none⟩] [[1]] (compute_hash "hello")) "a.py" "hello" = false
    ∧ needs_update (add_chunks (VectorStore.empty (α := ℚ) "r") "a.py"
      [⟨none, none, none⟩] [[1]] (compute_hash "hello")) "a.py" "world" = true := by
  have h := claim_c4_amended (VectorStore.empty (α := ℚ) "r") "a.py" "hello"
    [⟨none, none, none⟩] [[1]] (by decide) (by decide)
  exact ⟨h.2.1, h.2.2 "world" (by decide)⟩

end PRBot